import Mathlib

/-!
# Langulus::Profiler — verification of the measurement/aggregation core

Shallow embedding of the Langulus::Profiler sources (the build-aware variant:
`src/unnamed/part_001`, second document, together with `src/source/Profiler.cpp`
and the declarations in `src/include/Langulus/Profiler.hpp` /
`src/source/Build.hpp`).

Modelling conventions:
* `Time` / `TimePoint` (`std::chrono::steady_clock`, integer nanosecond rep)
  are modelled as `Int`; C++ integer division on positive operands agrees with
  Lean's `Int` division.
* The measurement chain (`main` plus the `parent`/`child` links) is modelled
  as a list of `Meas` records, root first; `Measurement::compiled` (a raw
  pointer into the persistent `Result` forest) is modelled as the access path
  (list of `(name, build)` keys) of the pointed-to node.
* `std::unordered_map<String, std::unordered_map<Build, ResultPtr>>` is
  modelled as an association list keyed by the `(name, build)` pair; only
  lookup/insert are relevant to the verified claims, not iteration order.
* The wall clock is an explicit `now : Int` argument threaded through the
  operations; instrumented runs advance it by one per primitive event.
-/

namespace LangulusProfiler

/-- Build fingerprint (`struct Build`, `src/source/Build.hpp`): a bitset of
feature flags plus bitness/alignment/endianness bytes.  Equality is over the
full bit pattern. -/
structure Build where
  properties : Nat
  bitness : Nat
  alignment : Nat
  endianness : Nat
deriving DecidableEq, Repr

/-- Key of the two-level result map: outer key `name`, inner key `build`. -/
abbrev Key := String × Build

/-- `State::Measurement` (header fields): identity, start/end timestamps, the
`ended` flag, and the cached `compiled` back-pointer (modelled as a path into
the result forest; `none` = null pointer).  The `parent`/`child` links are
represented by the position in the chain list. -/
structure Meas where
  name : String
  build : Build
  start : Int
  stop : Int
  ended : Bool
  compiled : Option (List Key)
deriving DecidableEq, Repr

def Meas.key (m : Meas) : Key := (m.name, m.build)

/-- `Measurement::Measurement(n, b, parent)`: `start = Clock::now()`,
`end = start`, `ended` defaults to false, `compiled` defaults to null. -/
def Meas.fresh (n : String) (b : Build) (now : Int) : Meas :=
  ⟨n, b, now, now, false, none⟩

/-- `Time::max()` for the 64-bit nanosecond representation (default of
`Result::min` in the header). -/
def timeTop : Int := 2 ^ 63 - 1

/-- `Time::min()` for the 64-bit nanosecond representation (default of
`Result::max` in the header). -/
def timeBot : Int := -(2 ^ 63)

/-- `State::Result`: persistent statistics node.  `children` is the nested
two-level map, flattened to `(name, build)` keys. -/
inductive Result where
  | mk (name : String) (build : Build)
       (rmin rmax ravg rtotal rsamples : Int)
       (children : List (Key × Result))
deriving Repr

def Result.name : Result → String
  | .mk n _ _ _ _ _ _ _ => n

def Result.build : Result → Build
  | .mk _ b _ _ _ _ _ _ => b

def Result.min : Result → Int
  | .mk _ _ mn _ _ _ _ _ => mn

def Result.max : Result → Int
  | .mk _ _ _ mx _ _ _ _ => mx

def Result.average : Result → Int
  | .mk _ _ _ _ av _ _ _ => av

def Result.total : Result → Int
  | .mk _ _ _ _ _ tt _ _ => tt

def Result.samples : Result → Int
  | .mk _ _ _ _ _ _ s _ => s

def Result.children : Result → List (Key × Result)
  | .mk _ _ _ _ _ _ _ ch => ch

def Result.setChildren (ch : List (Key × Result)) : Result → Result
  | .mk n b mn mx av tt s _ => .mk n b mn mx av tt s ch

/-- `State::Result::Result(const Measurement& m)` (part_001, lines 474-484):
if the measurement has ended, all statistics are seeded from its duration and
`samples = 1`; otherwise only the provisional `total` is set to the
elapsed-so-far time (`Clock::now() - m.start`), the other fields keeping their
header defaults. -/
def Result.ofMeas (now : Int) (m : Meas) : Result :=
  if m.ended then
    let d := m.stop - m.start
    .mk m.name m.build d d d d 1 []
  else
    .mk m.name m.build timeTop timeBot 0 (now - m.start) 0 []

/-- `State::Result::Integrate(const Measurement& m)` (part_001, lines
488-512): a still-running measurement refreshes only the provisional `total`,
and only when no sample has completed yet; a completed measurement either
seeds the statistics (`samples == 0`) or merges incrementally — `samples`
increments, `average` is updated by the incremental-mean formula with the
(integer) `Time` division of the source, `total` accumulates, and `min`/`max`
are updated by direct comparison. -/
def Result.integrate (now : Int) (m : Meas) : Result → Result
  | .mk n b mn mx av tt s ch =>
    if !m.ended then
      if s = 0 then .mk n b mn mx av (now - m.start) s ch
      else .mk n b mn mx av tt s ch
    else
      let d := m.stop - m.start
      if s = 0 then
        .mk n b d d d d 1 ch
      else
        let s' := s + 1
        let av' := ((s' - 1) * av + d) / s'
        let tt' := tt + d
        let mn' := if d < mn then d else mn
        let mx' := if d > mx then d else mx
        .mk n b mn' mx' av' tt' s' ch

/-- A completed measurement of duration `d` (started at 0, stopped at `d`),
used to feed individual sample durations into `Result.integrate`. -/
def endedMeas (d : Int) : Meas := ⟨"m", ⟨0, 0, 0, 0⟩, 0, d, true, none⟩

/-- The statistics node obtained by compiling a first completed sample of
duration `d` (the `Result` constructor) and then integrating the further
completed durations `ds` in order, exactly as the source does. -/
def integSeq (d : Int) (ds : List Int) : Result :=
  ds.foldl (fun r e => r.integrate 0 (endedMeas e)) (Result.ofMeas 0 (endedMeas d))

/-- Statistics nodes reachable by the operations the source ever applies to a
`Result`: construction from a measurement followed by any sequence of
`Integrate` calls.  The hypothesis `m.start ≤ m.stop` reflects the monotone
`steady_clock` (`end` is set by `Stop` after `start`; the constructor sets
`end = start`). -/
inductive ReachableResult : Result → Prop where
  | init (m : Meas) (now : Int) (h : m.start ≤ m.stop) :
      ReachableResult (Result.ofMeas now m)
  | step (r : Result) (m : Meas) (now : Int) (h : m.start ≤ m.stop)
      (hr : ReachableResult r) :
      ReachableResult (r.integrate now m)

/-- A `Result` with the `total` field replaced (all other fields kept). -/
def Result.withTotal (tt : Int) : Result → Result
  | .mk n b mn mx av _ s ch => .mk n b mn mx av tt s ch

/-! ### The result forest -/

/-- The two-level `Database` map, flattened to `(name, build)` keys. -/
abbrev Forest := List (Key × Result)

/-- Map lookup (`found_function[b->name]` then `found_function[b->build]`,
restricted to the entries that actually hold a node). -/
def lookupF (k : Key) : Forest → Option Result
  | [] => none
  | (k', r) :: rest => if k' = k then some r else lookupF k rest

/-- Replace the node stored under key `k` (no effect if the key is absent). -/
def updateF (k : Key) (f : Result → Result) : Forest → Forest
  | [] => []
  | (k', r) :: rest =>
    if k' = k then (k', f r) :: rest else (k', r) :: updateF k f rest

/-- Follow an access path from the forest root to a node. -/
def findAt : List Key → Forest → Option Result
  | [], _ => none
  | k :: ks, F =>
    match lookupF k F with
    | none => none
    | some r => if ks = [] then some r else findAt ks r.children

/-- Apply `f` to the node addressed by a (nonempty) path; no effect when the
path does not resolve.  Models mutation through a cached `Result*`. -/
def updateAt : List Key → (Result → Result) → Forest → Forest
  | [], _, F => F
  | k :: ks, f, F =>
    if ks = [] then updateF k f F
    else updateF k (fun r => r.setChildren (updateAt ks f r.children)) F

/-- The `samples` field of the node addressed by `p` (0 when absent). -/
def samplesAt (p : List Key) (F : Forest) : Int :=
  match findAt p F with
  | some r => r.samples
  | none => 0

/-- Whether the (possibly empty) path resolves; the empty path stands for the
forest root itself. -/
def existsAtB (p : List Key) (F : Forest) : Bool :=
  p.isEmpty || (findAt p F).isSome

/-- The scalar statistics of a node: samples, min, max, average, total. -/
def scal5 (r : Result) : Int × Int × Int × Int × Int :=
  (r.samples, r.min, r.max, r.average, r.total)

/-- The settled statistics of a node: samples, min, max, average. -/
def stats4 (r : Result) : Int × Int × Int × Int :=
  (r.samples, r.min, r.max, r.average)

def scalAt (p : List Key) (F : Forest) : Option (Int × Int × Int × Int × Int) :=
  (findAt p F).map scal5

def statsAt (p : List Key) (F : Forest) : Option (Int × Int × Int × Int) :=
  (findAt p F).map stats4

/-- `found_build ? found_build->Integrate(*m) : make_unique<Result>(*m)` on
one children map: integrate into the existing node under the measurement's
key, or create it from the measurement. -/
def integrateHere (now : Int) (m : Meas) (F : Forest) : Forest :=
  match lookupF m.key F with
  | some _ => updateF m.key (Result.integrate now m) F
  | none => F ++ [(m.key, Result.ofMeas now m)]

/-- Locate-or-create-and-integrate under the children map of the node at path
`pp` (the parent's cached path; `[]` addresses the root `results` map). -/
def integAP (now : Int) (m : Meas) : List Key → Forest → Forest
  | [], F => integrateHere now m F
  | k :: ks, F =>
    updateF k (fun r => r.setChildren (integAP now m ks r.children)) F

/-! ### Profiler state and its operations

Translation of `State` (part_001, second document).  The chain list models
`main` and the `parent`/`child` links, root first; `[]` is a null `main`.
`dumps` records the times at which `DumpProfilerResults` was invoked (the
report file itself is modelled separately, for C7/C9). -/

structure PState where
  chain : List Meas
  results : Forest
  active : List Build
  interval : Int
  lastOut : Int
  dumps : List Int
deriving Repr

/-- `std::unordered_set<Build>::insert`. -/
def insertActive (b : Build) (l : List Build) : List Build :=
  if b ∈ l then l else b :: l

/-- The initial state: null `main`, empty forest, no active builds.  The
output interval is left 0 here (its value is irrelevant to the measurement
claims; `Configure` sets it). -/
def initP : PState := ⟨[], [], [], 0, 0, []⟩

/-- `State::Configure(file, interval)` (part_001, lines 277-281): stores the
interval and resets the last-output timestamp (the file path is not part of
the measurement state modelled here). -/
def configureM (interval now : Int) (s : PState) : PState :=
  { s with interval := interval, lastOut := now }

/-- The child-walk of `State::Start` (part_001, lines 300-307): walking from
`main`, each `stack->child` in turn is compared against the requested
`(name, build)`; a match aborts the walk ("Avoid nesting calls - only the top
level is measured"). -/
def childWalkMatch (n : String) (b : Build) : List Meas → Bool
  | [] => false
  | m :: rest => (m.name == n && m.build == b) || childWalkMatch n b rest

/-- `State::Start(n, b)` (part_001, lines 287-318).  Returns the new state and
whether a real measurement was started (`false` = the inert `Stopper {}`).
If `main` is null a root measurement is created; otherwise the chain is
walked: if any `stack->child` matches the requested pair an inert guard is
returned, else a fresh measurement is attached under the deepest node. -/
def startM (now : Int) (n : String) (b : Build) (s : PState) : PState × Bool :=
  match s.chain with
  | [] => ({ s with chain := [Meas.fresh n b now] }, true)
  | _ :: rest =>
    if childWalkMatch n b rest then (s, false)
    else ({ s with chain := s.chain ++ [Meas.fresh n b now] }, true)

/-- The trailing interval check of `State::Compile` (part_001, lines 448-452):
a periodic report write happens iff the configured interval is nonzero and it
has elapsed since the last (periodic) write. -/
def afterCompileDump (now : Int) (s : PState) : PState :=
  if s.interval ≠ 0 ∧ now > s.lastOut + s.interval then
    { s with lastOut := now, dumps := now :: s.dumps }
  else s

/-- The climb of `State::Compile` (part_001, lines 411-417): walk the ancestors
(deepest first) while they are still running, re-integrating each through its
cached `compiled` pointer, to refresh total time of running results.
A null `compiled` would be a null-pointer dereference in the source;
it is modelled as a no-op (the reachable states of the machine never hit it). -/
def climbUp (now : Int) : List Meas → Forest → Forest
  | [], F => F
  | p :: rest, F =>
    if p.ended then F
    else
      match p.compiled with
      | some q => climbUp now rest (updateAt q (Result.integrate now p) F)
      | none => climbUp now rest F

/-- The slow path of `State::Compile` (part_001, lines 419-446): descend from
`main` along child links; nodes with a `compiled` cache are skipped, others
are resolved against their parent's cached node (`pp` is the parent path, `[]`
for the root level), integrated, and cached — except that a non-root node that
has ended is integrated, marked active, detached from its parent
(`node->parent->child = nullptr`, which also drops anything hanging below it)
and the walk stops.  `hasParent` tells whether the head node has a parent. -/
def slowWalk (now : Int) (hasParent : Bool) (pp : List Key) :
    List Meas → Forest → List Build → List Meas × Forest × List Build
  | [], F, act => ([], F, act)
  | node :: rest, F, act =>
    match node.compiled with
    | some q =>
      let r := slowWalk now true q rest F act
      (node :: r.1, r.2)
    | none =>
      let q := pp ++ [node.key]
      let F1 := integAP now node pp F
      if hasParent && node.ended then
        ([], F1, insertActive node.build act)
      else
        let r := slowWalk now true q rest F1 act
        ({ node with compiled := some q } :: r.1, r.2)

/-- `State::Compile(b)` (part_001, lines 373-453), invoked on the deepest chain
node (the only way the source reaches it: `Stop` of the innermost guard).
Root case: integrate into the root map, mark the build active, and flush the
report (`Instance.End()`); the chain is left in place — the source never
clears `main`.  Non-root fast path (parent's `compiled` cache set): integrate
into the parent's children, detach the node if it ended (else cache the
pointer on it), then climb through still-running ancestors.  Non-root slow
path: `slowWalk` from `main`.  Both non-root paths finish with the interval
check. -/
def compileM (now : Int) (s : PState) : PState :=
  match s.chain.getLast? with
  | none => s
  | some m =>
    let c := s.chain.dropLast
    match c.getLast? with
    | none =>
      -- `not b->parent`: compiling the main measurement
      let F := integAP now m [] s.results
      { s with results := F, active := insertActive m.build s.active,
               dumps := now :: s.dumps }
    | some p =>
      match p.compiled with
      | some pp =>
        let F1 := integAP now m pp s.results
        if m.ended then
          let F2 := climbUp now c.reverse F1
          afterCompileDump now
            { s with chain := c, results := F2,
                     active := insertActive m.build s.active }
        else
          -- dead in this variant: `Compile` only runs after `Stop` set `ended`
          let F2 := climbUp now c.reverse F1
          afterCompileDump now
            { s with results := F2,
                     chain := c ++ [{ m with compiled := some (pp ++ [m.key]) }] }
      | none =>
        let r := slowWalk now false [] s.chain s.results s.active
        afterCompileDump now
          { s with chain := r.1, results := r.2.1, active := r.2.2 }

/-- `Measurement::Stop()` (part_001, lines 466-470) applied to the deepest
measurement of the chain — the source's guard destruction order under
well-nested use: record the end timestamp, set `ended`, and hand the
measurement to `Compile`. -/
def stopM (now : Int) (s : PState) : PState :=
  match s.chain.getLast? with
  | none => s
  | some m =>
    compileM now
      { s with chain := s.chain.dropLast ++ [{ m with stop := now, ended := true }] }

/-! ### Instrumented runs

To state C1 ("samples equals the number of completed Stops at that tree
position") the machine is instrumented with a count of completed `Stop`
calls per tree position (the chain's key path at the moment of the stop), and
with an explicit clock advancing one tick per primitive event. -/

def keyPath (c : List Meas) : List Key := c.map Meas.key

/-- Machine state plus the completed-stop counts and the clock. -/
structure IState where
  ps : PState
  counts : List Key → Nat
  clk : Int

def initI : IState := ⟨initP, fun _ => 0, 0⟩

/-- Instrumented `Start`: counts unchanged. -/
def istart (n : String) (b : Build) (is : IState) : IState × Bool :=
  let r := startM is.clk n b is.ps
  (⟨r.1, is.counts, is.clk + 1⟩, r.2)

/-- Instrumented `Stop` of the innermost guard: the completed-stop count of
the stopped measurement's tree position is incremented. -/
def istop (is : IState) : IState :=
  match is.ps.chain with
  | [] => is
  | _ =>
    let p := keyPath is.ps.chain
    ⟨stopM is.clk is.ps, fun q => if q = p then is.counts q + 1 else is.counts q,
     is.clk + 1⟩

/-- A well-nested single-root scope tree: `node n b ts` stands for
"Start(n, b); run `ts`; release the guard". -/
inductive STree where
  | node (n : String) (b : Build) (ts : List STree)

mutual
/-- Execute one scope: start, run the nested scopes, then release the guard —
which calls `Stop` exactly when the guard is real (an inert guard's release
does nothing). -/
def runTree (t : STree) (is : IState) : IState :=
  match t with
  | .node n b ts =>
    let r := istart n b is
    let is2 := runList ts r.1
    if r.2 then istop is2 else is2

/-- Execute a list of sibling scopes left to right. -/
def runList (ts : List STree) (is : IState) : IState :=
  match ts with
  | [] => is
  | t :: rest => runList rest (runTree t is)
end

/-- Flat event traces (for claims about sequences that are not a single
root-cycle tree). -/
inductive Ev where
  | start (n : String) (b : Build)
  | stop

def runEv : List Ev → IState → IState
  | [], is => is
  | .start n b :: rest, is => runEv rest (istart n b is).1
  | .stop :: rest, is => runEv rest (istop is)

/-- Concrete build fingerprint for counterexamples and witnesses. -/
def cbuild : Build := ⟨0, 0, 0, 0⟩

/-! ### Report rendering (`State::Result::Dump`, part_001 lines 517-599, and
`State::DumpProfilerResults`, lines 327-369)

The HTML output is modelled structurally: one `NodeDoc` per rendered node,
holding the data each emitted line carries.  `long double` ratios are modelled
as exact rationals (`RealMs` cancels in every ratio the renderer computes);
`int(x)` truncation of the nonnegative ratios is the rational floor.  The
percent-chance line is computed by the source in SINGLE precision —
`int((float(samples) / float(parent->samples)) * 100.0f)` — so it is modelled
by an exact emulation of IEEE-754 binary32 arithmetic (`fround32` below): each
`float` operation produces the round-to-nearest-even binary32 value of its
exact result.  The RGB colour gradient is presentation-only and not
modelled. -/

/-- `⌊log₂ n⌋` by fuel-bounded halving (exact whenever `fuel ≥ log₂ n`; the
callers pass `n` itself as fuel). -/
def log2fuel : Nat → Nat → Nat
  | 0, _ => 0
  | fuel + 1, n => if n < 2 then 0 else log2fuel fuel (n / 2) + 1

/-- The least `t` with `b ≤ a * 2^t`, by fuel-bounded doubling (exact whenever
`fuel ≥ log₂ b + 1`; the caller passes `b` itself as fuel). -/
def ceil2fuel : Nat → Nat → Nat → Nat
  | 0, _, _ => 0
  | fuel + 1, a, b => if b ≤ a then 0 else ceil2fuel fuel (a * 2) b + 1

/-- `⌊log₂ (a / b)⌋` of a positive fraction `a / b` (the binade of the exact
value a `float` operation produces). -/
def ratLog2floor (a b : Nat) : Int :=
  if b ≤ a then (log2fuel a (a / b) : Int) else -(ceil2fuel b a b : Int)

/-- `a / b` rounded to the nearest integer, ties to even — the IEEE-754
default rounding applied to a value scaled into integer position. -/
def rneDiv (a b : Nat) : Nat :=
  let q := a / b
  let r := a % b
  if 2 * r < b then q
  else if b < 2 * r then q + 1
  else if q % 2 = 0 then q else q + 1

/-- IEEE-754 binary32 rounding of a positive exact result `a / b`, as a dyadic
fraction: the significand is rounded to 24 bits at the value's binade (a carry
to `2^24` lands exactly on the next binade and needs no renormalisation).
Modelled on the normal range — no subnormals or overflow, which no ratio of
positive 64-bit sample counts the renderer forms can reach. -/
def fround32 (a b : Nat) : Nat × Nat :=
  let e := ratLog2floor a b
  if 0 ≤ 23 - e then
    (rneDiv (a * 2 ^ (23 - e).toNat) b, 2 ^ (23 - e).toNat)
  else
    (rneDiv a (b * 2 ^ (e - 23).toNat) * 2 ^ (e - 23).toNat, 1)

/-- `int((float a / float p) * 100.0f)` for positive counts `a`, `p`: each
count converted to `float` (itself a rounding once above 2^24), the quotient
rounded, the product with the exactly representable `100.0f` rounded, then
truncated (`int(x)` truncates toward zero; the value here is nonnegative). -/
def percentMag (a p : Nat) : Nat :=
  let fa := fround32 a 1
  let fp := fround32 p 1
  let fd := fround32 (fa.1 * fp.2) (fa.2 * fp.1)
  let fm := fround32 (fd.1 * 100) fd.2
  fm.1 / fm.2

/-- `int((float(samples) / float(parentSamples)) * 100.0f)` from
`Result::Dump` (part_001 line 559), total over `Int`: magnitudes follow
`percentMag` (binary32 emulation), the sign is the quotient's sign with
`int(x)` truncation toward zero; a zero numerator renders 0, and the
zero-divisor input is unreachable (the branch is guarded by
`parent->samples` being nonzero). -/
def floatPercent (s ps : Int) : Int :=
  if s = 0 ∨ ps = 0 then 0
  else if (0 ≤ s) = (0 ≤ ps) then (percentMag s.natAbs ps.natAbs : Int)
  else -(percentMag s.natAbs ps.natAbs : Int)

/-- The call-frequency line: "happens about k times per parent call" /
"has pct% chance to be called from parent" / "happens on each parent call". -/
inductive FreqInfo where
  | times (k : Int)
  | chance (pct : Int)
  | each
deriving DecidableEq, Repr

/-- The timing block: min/avg/max/executions/total for `samples > 1`, the
single-execution line for `samples == 1`, the "still running" marker
otherwise. -/
inductive TimeInfo where
  | stats (mn av mx smp tt : Int)
  | single (tt : Int)
  | running (tt : Int)
deriving DecidableEq, Repr

/-- One rendered `<details>` block. -/
inductive NodeDoc where
  | mk (name : String) (build : Build) (act : Bool)
       (freq : Option FreqInfo) (time : TimeInfo) (portion : Option Int)
       (children : List NodeDoc)
deriving Repr

def NodeDoc.freq : NodeDoc → Option FreqInfo
  | .mk _ _ _ f _ _ _ => f

def NodeDoc.time : NodeDoc → TimeInfo
  | .mk _ _ _ _ t _ _ => t

mutual
/-- `Result::Dump(out, parent)`: the structured content of one node's block.
`parent` carries the parent's `(samples, total)` (null at forest roots). -/
def dumpDoc (active : List Build) (parent : Option (Int × Int)) (r : Result) :
    NodeDoc :=
  match r with
  | .mk n b mn mx av tt s ch =>
    let hot : ℚ := match parent with
      | some pr => (tt : ℚ) / (pr.2 : ℚ)
      | none => 1
    let act : Bool := active.contains b && decide ((1 : ℚ) / 4 < hot)
    let freq : Option FreqInfo :=
      match parent with
      | some pr =>
        if pr.1 ≠ 0 then
          some (if s ≠ pr.1 then
                  if pr.1 < s then .times (s / pr.1)
                  else .chance (floatPercent s pr.1)
                else .each)
        else none
      | none => none
    let time : TimeInfo :=
      if s > 1 then .stats mn av mx s tt
      else if s = 1 then .single tt
      else .running tt
    let portion : Option Int :=
      match parent with
      | some pr => some (((tt : ℚ) * 100 / (pr.2 : ℚ)).floor)
      | none => none
    .mk n b act freq time portion (dumpDocs active (some (s, tt)) ch)

/-- The children loop of `Result::Dump`: each child rendered with this node as
parent context. -/
def dumpDocs (active : List Build) (parent : Option (Int × Int)) :
    List (Key × Result) → List NodeDoc
  | [] => []
  | (_, r) :: rest => dumpDoc active parent r :: dumpDocs active parent rest
end

/-- What the renderer writes between header and footer. -/
inductive ReportItem where
  | header (time : Int)
  | node (d : NodeDoc)
  | footer

/-- `std::ofstream`: writes reach the buffer only while the stream is open; a
stream whose `open` failed silently drops every insertion. -/
structure OStream where
  isOpen : Bool
  buf : List ReportItem

def OStream.write (o : OStream) (i : ReportItem) : OStream :=
  if o.isOpen then { o with buf := o.buf ++ [i] } else o

def writeForest (o : OStream) : List NodeDoc → OStream
  | [] => o
  | d :: rest => writeForest (o.write (.node d)) rest

/-- `State::DumpProfilerResults()` (part_001, lines 327-369): open the output
file; when the open failed, log a diagnostic (`Logger::Error`) — the
subsequent insertions then reach no file; write the timestamp header, every
root result block, and the footer.  The member function is `const`: it reads
but never writes the profiler state, so it returns only the stream and the
diagnostics.  (The source message text contains an apostrophe; it is
paraphrased here.) -/
def dumpResults (openOk : Bool) (now : Int) (s : PState) :
    OStream × List String :=
  let out : OStream := ⟨openOk, []⟩
  let diags : List String :=
    if openOk then [] else ["Profiler: cannot open profiling file"]
  let out := out.write (.header now)
  let out := writeForest out (dumpDocs s.active none s.results)
  let out := out.write .footer
  (out, diags)

/-- One instrumented machine step. -/
def stepEv : Ev → IState → IState
  | .start n b, is => (istart n b is).1
  | .stop, is => istop is

/-! ### Invariants for the single-root-cycle correctness proof (C1) -/

/-- No measurement of the list carries a `compiled` cache. -/
def allNone (l : List Meas) : Prop := ∀ x ∈ l, x.compiled = none

/-- Every measurement of the list is still running. -/
def allRunning (l : List Meas) : Prop := ∀ x ∈ l, x.ended = false

/-- Correctness of the `compiled` caches along a chain suffix sitting under
the node at path `pp` (`[]` = forest root): caches, where set, hold the true
access path of the node's `Result`, that node exists, and caches form a
downward-closed prefix of the chain (after the first null cache, all are
null). -/
inductive ChainOk (F : Forest) : List Key → List Meas → Prop where
  | nil (pp : List Key) : ChainOk F pp []
  | consNone (pp : List Key) (x : Meas) (rest : List Meas)
      (hx : x.compiled = none) (hrest : allNone rest) :
      ChainOk F pp (x :: rest)
  | consSome (pp : List Key) (x : Meas) (rest : List Meas) (q : List Key)
      (hx : x.compiled = some q) (hq : q = pp ++ [x.key])
      (hex : (findAt q F).isSome = true) (hrest : ChainOk F q rest) :
      ChainOk F pp (x :: rest)

/-- The machine invariant of the instrumented run: every tree position's
sample count equals its completed-stop count, and the chain's caches are
consistent. -/
def InvI (is : IState) : Prop :=
  (∀ p, samplesAt p is.ps.results = (is.counts p : Int)) ∧
    ChainOk is.ps.results [] is.ps.chain

/-- The chain suffix as the slow path of `Compile` leaves it: every node's
cache filled with its true path under `pp`. -/
def setCompiledAll : List Key → List Meas → List Meas
  | _, [] => []
  | pp, x :: rest =>
    { x with compiled := some (pp ++ [x.key]) }
      :: setCompiledAll (pp ++ [x.key]) rest

/-- A run that also produces the report write performed at each flush point
(times at which the machine recorded a dump), under a file-open oracle `ok`:
the measurement state never depends on `ok`, only the emitted reports do. -/
def runEvOracle (ok : Bool) : List Ev → IState → IState × List (OStream × List String)
  | [], is => (is, [])
  | ev :: rest, is =>
    let is' := stepEv ev is
    let reports :=
      if is'.ps.dumps.length ≠ is.ps.dumps.length
      then [dumpResults ok is'.clk is'.ps] else []
    let r := runEvOracle ok rest is'
    (r.1, reports ++ r.2)

end LangulusProfiler

namespace LangulusProfiler

/-! ## Claim C2 — duplicate Start collapsing -/

/-- The child walk reports a match exactly when some measurement strictly
below the root of the chain carries the requested `(name, build)` pair. -/
theorem childWalkMatch_iff (n : String) (b : Build) (l : List Meas) :
    childWalkMatch n b l = true ↔ ∃ m ∈ l, m.name = n ∧ m.build = b := by
  induction l with
  | nil => simp [childWalkMatch]
  | cons m rest ih =>
    simp [childWalkMatch, ih, Bool.or_eq_true, Bool.and_eq_true, beq_iff_eq]

/-- C2 counterexample: with the open chain m → a → b, requesting ("a", build)
returns an inert guard and changes nothing, although the deepest open node is
("b", build) ≠ ("a", build) — so inertness is *not* equivalent to matching the
deepest open node, and no child is attached under it. -/
theorem start_inert_not_deepest_counterexample :
    ((startM 9 "a" cbuild
        (runEv [.start "m" cbuild, .start "a" cbuild, .start "b" cbuild] initI).ps).2
      = false) ∧
    ((startM 9 "a" cbuild
        (runEv [.start "m" cbuild, .start "a" cbuild, .start "b" cbuild] initI).ps).1.chain
      = (runEv [.start "m" cbuild, .start "a" cbuild, .start "b" cbuild] initI).ps.chain) ∧
    ((runEv [.start "m" cbuild, .start "a" cbuild, .start "b" cbuild]
        initI).ps.chain.getLast?.map Meas.key = some ("b", cbuild)) ∧
    (("b", cbuild) : Key) ≠ ("a", cbuild) := by
  decide

/-- C2 (amended): while a chain is open, `Start(n, b)` returns an inert guard
(machine state unchanged) iff *some* measurement strictly below the root of
the open chain — not necessarily the deepest one, and never the root itself —
carries the requested `(name, build)`; otherwise a fresh measurement is
attached under the deepest node. -/
theorem start_inert_iff_chain_match (s : PState) (now : Int) (n : String)
    (b : Build) (m0 : Meas) (rest : List Meas) (h : s.chain = m0 :: rest) :
    ((startM now n b s).2 = false ↔ ∃ m ∈ rest, m.name = n ∧ m.build = b) ∧
      ((startM now n b s).2 = false → (startM now n b s).1 = s) ∧
      ((¬ ∃ m ∈ rest, m.name = n ∧ m.build = b) →
        startM now n b s
          = ({ s with chain := s.chain ++ [Meas.fresh n b now] }, true)) := by
  have hs : startM now n b s =
      if childWalkMatch n b rest then (s, false)
      else ({ s with chain := s.chain ++ [Meas.fresh n b now] }, true) := by
    unfold startM
    rw [h]
  rw [hs]
  cases hval : childWalkMatch n b rest <;>
    simp [hval, ← childWalkMatch_iff n b rest]

/-- Witness for the amended C2 at a two-deep chain: requesting the non-root
node's pair is inert; requesting an unused pair attaches under the deepest
node. -/
theorem start_inert_iff_chain_match_witness :
    (((startM 7 "a" cbuild
          ⟨[Meas.fresh "m" cbuild 0, Meas.fresh "a" cbuild 1], [], [], 0, 0, []⟩).2
        = false) ↔
      ∃ m ∈ [Meas.fresh "a" cbuild 1], m.name = "a" ∧ m.build = cbuild) ∧
    (((startM 7 "a" cbuild
          ⟨[Meas.fresh "m" cbuild 0, Meas.fresh "a" cbuild 1], [], [], 0, 0, []⟩).2
        = false) →
      (startM 7 "a" cbuild
          ⟨[Meas.fresh "m" cbuild 0, Meas.fresh "a" cbuild 1], [], [], 0, 0, []⟩).1
        = ⟨[Meas.fresh "m" cbuild 0, Meas.fresh "a" cbuild 1], [], [], 0, 0, []⟩) ∧
    ((¬ ∃ m ∈ [Meas.fresh "a" cbuild 1], m.name = "a" ∧ m.build = cbuild) →
      startM 7 "a" cbuild
          ⟨[Meas.fresh "m" cbuild 0, Meas.fresh "a" cbuild 1], [], [], 0, 0, []⟩
        = (⟨[Meas.fresh "m" cbuild 0, Meas.fresh "a" cbuild 1,
              Meas.fresh "a" cbuild 7], [], [], 0, 0, []⟩, true)) :=
  start_inert_iff_chain_match
    ⟨[Meas.fresh "m" cbuild 0, Meas.fresh "a" cbuild 1], [], [], 0, 0, []⟩
    7 "a" cbuild (Meas.fresh "m" cbuild 0) [Meas.fresh "a" cbuild 1] rfl

/-! ## Claim C3 — root compile -/

/-- C3: compiling the root measurement does locate/create the root Result,
integrate the sample, mark the build active, and flush a report — but the
measurement chain is *not* discarded (`main` is never cleared; the source's
`Stopper` even deletes the object `main` still points to), so the next
`Start` attaches a child under the stale root instead of creating a fresh
root. -/
theorem root_compile_chain_not_discarded :
    (samplesAt [("a", cbuild)]
        (runEv [.start "a" cbuild, .stop] initI).ps.results = 1) ∧
    cbuild ∈ (runEv [.start "a" cbuild, .stop] initI).ps.active ∧
    (runEv [.start "a" cbuild, .stop] initI).ps.dumps ≠ [] ∧
    (runEv [.start "a" cbuild, .stop] initI).ps.chain ≠ [] ∧
    ((istart "c" cbuild
        (runEv [.start "a" cbuild, .stop] initI)).1.ps.chain.map Meas.name
      = ["a", "c"]) := by
  decide

/-! ## Claim C8 — interval-gated periodic report -/

/-- `Stop` on a nonempty chain: mark the last measurement ended and compile. -/
theorem stopM_eq (now : Int) (s : PState) (l : List Meas) (m : Meas)
    (h : s.chain = l ++ [m]) :
    stopM now s
      = compileM now
          { s with chain := l ++ [{ m with stop := now, ended := true }] } := by
  unfold stopM
  rw [h]
  simp only [List.getLast?_concat, List.dropLast_concat]

/-- `Compile` of a non-root measurement always finishes with the interval
check, whichever path (fast or slow) it took. -/
theorem compileM_nonroot_dumps (now : Int) (s : PState) (c0 : List Meas)
    (p m : Meas) (h : s.chain = (c0 ++ [p]) ++ [m]) :
    (compileM now s).dumps =
      if s.interval ≠ 0 ∧ now > s.lastOut + s.interval
      then now :: s.dumps else s.dumps := by
  unfold compileM
  rw [h]
  simp only [List.getLast?_concat, List.dropLast_concat]
  cases p.compiled
  · simp only [afterCompileDump]
    split <;> rfl
  · cases m.ended <;>
      · simp only [afterCompileDump, Bool.false_eq_true, if_false, if_true]
        split <;> rfl

/-- C8: after compiling a non-root measurement (chain depth at least 2 at the
`Stop`), a time-triggered report write happens iff the configured interval is
nonzero and has elapsed since the last periodic write; in particular a zero
interval never triggers one. -/
theorem periodic_dump_iff (s : PState) (now : Int) (c0 : List Meas)
    (p m : Meas) (h : s.chain = c0 ++ [p, m]) :
    (stopM now s).dumps =
      if s.interval ≠ 0 ∧ now > s.lastOut + s.interval
      then now :: s.dumps else s.dumps := by
  rw [stopM_eq now s (c0 ++ [p]) m (by simpa using h)]
  exact compileM_nonroot_dumps now _ c0 p _ rfl

/-- Witness for C8: depth-2 chain, interval 5, last write at 0, stop at 10 —
the periodic write fires. -/
theorem periodic_dump_iff_witness :
    ((stopM 10 ⟨[Meas.fresh "m" cbuild 0, Meas.fresh "a" cbuild 1],
          [], [], 5, 0, []⟩).dumps =
        if (5 : Int) ≠ 0 ∧ (10 : Int) > 0 + 5 then 10 :: ([] : List Int)
        else ([] : List Int)) ∧
      (stopM 10 ⟨[Meas.fresh "m" cbuild 0, Meas.fresh "a" cbuild 1],
          [], [], 5, 0, []⟩).dumps = [10] :=
  ⟨periodic_dump_iff _ 10 [] (Meas.fresh "m" cbuild 0) (Meas.fresh "a" cbuild 1) rfl,
   by decide⟩

/-! ## Claim C7 — report-file open failure -/

/-- Writes to a stream whose open failed are dropped. -/
theorem write_closed (o : OStream) (i : ReportItem) (h : o.isOpen = false) :
    o.write i = o := by
  simp [OStream.write, h]

/-- Emitting the node blocks to a failed stream leaves it untouched. -/
theorem writeForest_closed (ds : List NodeDoc) :
    ∀ o : OStream, o.isOpen = false → writeForest o ds = o := by
  induction ds with
  | nil => intro o _; rfl
  | cons d rest ih =>
    intro o h
    unfold writeForest
    rw [write_closed o _ h, ih o h]

/-- C7: when the report file cannot be opened, no report content is produced,
a diagnostic is emitted, and — `DumpProfilerResults` being `const` and its
result feeding nothing back — the measurement state of any subsequent run is
exactly what it would have been had every open succeeded: the failure is
recovered locally and profiling continues. -/
theorem dump_open_failure_harmless :
    (∀ (now : Int) (s : PState),
        (dumpResults false now s).1.buf = [] ∧ (dumpResults false now s).2 ≠ []) ∧
      (∀ (es : List Ev) (is : IState) (ok1 ok2 : Bool),
        (runEvOracle ok1 es is).1 = (runEvOracle ok2 es is).1) := by
  constructor
  · intro now s
    constructor
    · simp [dumpResults, write_closed, writeForest_closed]
    · simp [dumpResults]
  · intro es
    induction es with
    | nil => intro is ok1 ok2; rfl
    | cons ev rest ih =>
      intro is ok1 ok2
      show (runEvOracle ok1 rest (stepEv ev is)).1 = (runEvOracle ok2 rest (stepEv ev is)).1
      exact ih (stepEv ev is) ok1 ok2

/-! ## Claim C9 — call-frequency heuristic -/

/-- C9 counterexample: the percent-chance line is NOT the exact
`(samples / parent samples) * 100`.  A node with 53 samples under a parent
with 100 samples renders a 52% chance — the source computes
`int((float(53) / float(100)) * 100.0f)` in single precision, and the
binary32 quotient nearest 53/100 is 0.52999997…, whose product with `100.0f`
rounds to 52.9999962…, truncated to 52 — while the exact formula the claim
states gives (53 / 100) * 100 = 53. -/
theorem report_chance_single_precision_counterexample :
    (dumpDoc [] (some (100, 7)) (.mk "f" cbuild 0 0 0 3 53 [])).freq
        = some (.chance 52)
      ∧ ((53 : ℚ) / 100) * 100 = 53 ∧ (52 : Int) ≠ 53 :=
  ⟨by decide, by norm_num, by decide⟩

/-- C9 (amended): in a rendered node whose parent context has positive
samples, the frequency line is the integer times-per-parent-call ratio when
the node's samples exceed the parent's, the single-precision percentage
`int((float(samples) / float(parentSamples)) * 100.0f)` when fewer — which
float rounding can leave one below the exact percentage — and the "on each
parent call" marker when equal; in particular samples 6 under parent
samples 3 renders as about 2 times per parent call. -/
theorem report_frequency_heuristic (active : List Build) (ps ptt : Int)
    (r : Result) (h : 0 < ps) :
    (ps < r.samples →
      (dumpDoc active (some (ps, ptt)) r).freq
        = some (.times (r.samples / ps))) ∧
    (r.samples < ps →
      (dumpDoc active (some (ps, ptt)) r).freq
        = some (.chance (floatPercent r.samples ps))) ∧
    (r.samples = ps →
      (dumpDoc active (some (ps, ptt)) r).freq = some .each) ∧
    (r.samples = 6 → ps = 3 →
      (dumpDoc active (some (ps, ptt)) r).freq = some (.times 2)) := by
  obtain ⟨n, b, mn, mx, av, tt, s, ch⟩ := r
  simp only [Result.samples] at *
  have hps : ¬ ps = 0 := by omega
  refine ⟨?_, ?_, ?_, ?_⟩
  · intro hlt
    simp [dumpDoc, NodeDoc.freq, hps, hlt, show ¬ s = ps by omega]
  · intro hlt
    simp [dumpDoc, NodeDoc.freq, hps, show ¬ ps < s by omega, show ¬ s = ps by omega]
  · intro heq
    simp [dumpDoc, NodeDoc.freq, hps, heq]
  · intro h6 h3
    subst h6; subst h3
    simp [dumpDoc, NodeDoc.freq]

/-- Witness for C9 at parent samples 3, child samples 6. -/
theorem report_frequency_heuristic_witness :
    ((3 : Int) < (Result.mk "f" cbuild 0 0 0 10 6 []).samples →
      (dumpDoc [] (some (3, 20)) (Result.mk "f" cbuild 0 0 0 10 6 [])).freq
        = some (.times ((Result.mk "f" cbuild 0 0 0 10 6 []).samples / 3))) ∧
    ((dumpDoc [] (some (3, 20)) (Result.mk "f" cbuild 0 0 0 10 6 [])).freq
        = some (.times 2)) :=
  ⟨(report_frequency_heuristic [] 3 20 (Result.mk "f" cbuild 0 0 0 10 6 [])
      (by decide)).1,
   by decide⟩

/-! ## Forest lemma toolkit -/

/-- Case split of `Integrate` on a still-running measurement (helper shared by
several developments below). -/
theorem integrateRunningSplit (r : Result) (m : Meas) (now : Int)
    (h : m.ended = false) :
    (r.samples = 0 → r.integrate now m = r.withTotal (now - m.start)) ∧
      (r.samples ≠ 0 → r.integrate now m = r) := by
  obtain ⟨n, b, mn, mx, av, tt, s, ch⟩ := r
  simp only [Result.samples]
  unfold Result.integrate Result.withTotal
  constructor
  · intro hs; simp [h, hs]
  · intro hs; simp [h, hs]

theorem lookupF_update_self (k : Key) (f : Result → Result) (F : Forest) :
    lookupF k (updateF k f F) = (lookupF k F).map f := by
  induction F with
  | nil => rfl
  | cons e rest ih =>
    obtain ⟨k', r⟩ := e
    by_cases h : k' = k <;> simp [lookupF, updateF, h, ih]

theorem lookupF_update_ne (k k' : Key) (f : Result → Result) (F : Forest)
    (h : k' ≠ k) : lookupF k' (updateF k f F) = lookupF k' F := by
  induction F with
  | nil => rfl
  | cons e rest ih =>
    obtain ⟨k0, r⟩ := e
    by_cases h0 : k0 = k
    · subst h0
      have hne : ¬ k0 = k' := fun hh => h hh.symm
      simp [updateF, lookupF, hne]
    · by_cases h1 : k0 = k'
      · subst h1
        simp [updateF, lookupF, h0]
      · simp [updateF, lookupF, h0, h1, ih]

theorem updateF_absent (k : Key) (f : Result → Result) (F : Forest)
    (h : lookupF k F = none) : updateF k f F = F := by
  induction F with
  | nil => rfl
  | cons e rest ih =>
    obtain ⟨k0, r⟩ := e
    by_cases h0 : k0 = k
    · subst h0; simp [lookupF] at h
    · simp [lookupF, h0] at h
      simp [updateF, h0, ih h]

theorem lookupF_append_ne (k x : Key) (r : Result) (F : Forest) (h : x ≠ k) :
    lookupF k (F ++ [(x, r)]) = lookupF k F := by
  induction F with
  | nil => simp [lookupF, h]
  | cons e rest ih =>
    obtain ⟨k0, r0⟩ := e
    by_cases h0 : k0 = k <;> simp [lookupF, h0, ih]

theorem lookupF_append_self (k : Key) (r : Result) (F : Forest)
    (h : lookupF k F = none) : lookupF k (F ++ [(k, r)]) = some r := by
  induction F with
  | nil => simp [lookupF]
  | cons e rest ih =>
    obtain ⟨k0, r0⟩ := e
    by_cases h0 : k0 = k
    · subst h0; simp [lookupF] at h
    · simp [lookupF, h0] at h
      simp [lookupF, h0, ih h]

theorem setChildren_children (ch : List (Key × Result)) (r : Result) :
    (r.setChildren ch).children = ch := by
  obtain ⟨n, b, mn, mx, av, tt, s, ch0⟩ := r
  rfl

theorem integrate_children (now : Int) (m : Meas) (r : Result) :
    (r.integrate now m).children = r.children := by
  obtain ⟨n, b, mn, mx, av, tt, s, ch⟩ := r
  cases hm : m.ended <;> by_cases hs : s = 0 <;>
    simp [Result.integrate, hm, hs, Result.children]

theorem integrate_ended_samples (now : Int) (m : Meas) (r : Result)
    (h : m.ended = true) : (r.integrate now m).samples = r.samples + 1 := by
  obtain ⟨n, b, mn, mx, av, tt, s, ch⟩ := r
  by_cases hs : s = 0 <;>
    simp [Result.integrate, h, hs, Result.samples]

theorem integrate_running_stats4 (now : Int) (m : Meas) (r : Result)
    (h : m.ended = false) : stats4 (r.integrate now m) = stats4 r := by
  obtain ⟨n, b, mn, mx, av, tt, s, ch⟩ := r
  by_cases hs : s = 0 <;>
    simp [Result.integrate, h, hs, stats4, Result.samples, Result.min, Result.max,
      Result.average]

theorem integrate_running_id (now : Int) (m : Meas) (r : Result)
    (h : m.ended = false) (hs : r.samples ≠ 0) : r.integrate now m = r :=
  (integrateRunningSplit r m now h).2 hs

theorem setChildren_scal5 (ch : List (Key × Result)) (r : Result) :
    scal5 (r.setChildren ch) = scal5 r := by
  obtain ⟨n, b, mn, mx, av, tt, s, ch0⟩ := r
  simp [Result.setChildren, scal5, Result.samples, Result.min, Result.max,
    Result.average, Result.total]

theorem findAt_nil_forest (p : List Key) : findAt p ([] : Forest) = none := by
  cases p <;> simp [findAt, lookupF]

/-- `samplesAt`, `statsAt` and existence are functions of `scalAt`. -/
theorem samplesAt_congr (p : List Key) (F1 F2 : Forest)
    (h : scalAt p F1 = scalAt p F2) : samplesAt p F1 = samplesAt p F2 := by
  unfold scalAt at h
  unfold samplesAt
  cases h1 : findAt p F1 <;> cases h2 : findAt p F2 <;>
    rw [h1, h2] at h <;> simp_all [scal5]

theorem statsAt_congr (p : List Key) (F1 F2 : Forest)
    (h : scalAt p F1 = scalAt p F2) : statsAt p F1 = statsAt p F2 := by
  unfold scalAt at h
  unfold statsAt
  cases h1 : findAt p F1 <;> cases h2 : findAt p F2 <;>
    rw [h1, h2] at h <;> simp_all [scal5, stats4]

theorem isSome_congr (p : List Key) (F1 F2 : Forest)
    (h : scalAt p F1 = scalAt p F2) :
    (findAt p F1).isSome = (findAt p F2).isSome := by
  unfold scalAt at h
  cases h1 : findAt p F1 <;> cases h2 : findAt p F2 <;>
    rw [h1, h2] at h <;> simp_all

theorem findAt_single (k : Key) (F : Forest) : findAt [k] F = lookupF k F := by
  unfold findAt
  cases lookupF k F <;> simp

theorem findAt_cons (k : Key) (ks : List Key) (F : Forest) (h : ks ≠ []) :
    findAt (k :: ks) F =
      match lookupF k F with
      | none => none
      | some r => findAt ks r.children := by
  unfold findAt
  cases lookupF k F with
  | none => rfl
  | some r =>
    simp only [if_neg h]
    exact findAt.eq_def _ _

theorem updateAt_cons (k : Key) (ks : List Key) (f : Result → Result)
    (F : Forest) (h : ks ≠ []) :
    updateAt (k :: ks) f F
      = updateF k (fun r => r.setChildren (updateAt ks f r.children)) F := by
  simp [updateAt, h]

/-- Mutating through a resolved path rewrites exactly the addressed node. -/
theorem findAt_updateAt_self (f : Result → Result) :
    ∀ (q : List Key) (F : Forest), findAt q (updateAt q f F) = (findAt q F).map f := by
  intro q
  induction q with
  | nil => intro F; rfl
  | cons k ks ih =>
    intro F
    by_cases hks : ks = []
    · subst hks
      rw [show updateAt [k] f F = updateF k f F from rfl, findAt_single, findAt_single,
        lookupF_update_self]
    · rw [updateAt_cons _ _ _ _ hks, findAt_cons _ _ _ hks, findAt_cons _ _ _ hks,
        lookupF_update_self]
      cases lookupF k F with
      | none => rfl
      | some r =>
        simp only [Option.map_some', setChildren_children]
        exact ih r.children

/-- Mutating one path with a children-preserving function leaves the scalar
statistics of every other path unchanged. -/
theorem scalAt_updateAt_ne (f : Result → Result)
    (hf : ∀ r, (f r).children = r.children) :
    ∀ (q p : List Key) (F : Forest), p ≠ q →
      scalAt p (updateAt q f F) = scalAt p F := by
  intro q
  induction q with
  | nil => intro p F _; rfl
  | cons k ks ih =>
    intro p F hpq
    cases p with
    | nil => rfl
    | cons k' ps =>
      unfold scalAt
      by_cases hk : k' = k
      · subst hk
        by_cases hks : ks = []
        · subst hks
          have hps : ps ≠ [] := fun hc => hpq (by rw [hc])
          rw [show updateAt [k'] f F = updateF k' f F from rfl,
            findAt_cons _ _ _ hps, findAt_cons _ _ _ hps, lookupF_update_self]
          cases lookupF k' F with
          | none => rfl
          | some r =>
            simp only [Option.map_some', hf r]
        · rw [updateAt_cons _ _ _ _ hks]
          by_cases hps : ps = []
          · subst hps
            rw [findAt_single, findAt_single, lookupF_update_self]
            cases lookupF k' F with
            | none => rfl
            | some r =>
              simp only [Option.map_some']
              rw [setChildren_scal5]
          · rw [findAt_cons _ _ _ hps, findAt_cons _ _ _ hps, lookupF_update_self]
            cases lookupF k' F with
            | none => rfl
            | some r =>
              simp only [Option.map_some', setChildren_children]
              have := ih ps r.children (fun hc => hpq (by rw [hc]))
              simpa only [scalAt] using this
      · have hred : ∃ g, updateAt (k :: ks) f F = updateF k g F := by
          by_cases hks : ks = []
          · subst hks; exact ⟨f, rfl⟩
          · exact ⟨_, updateAt_cons _ _ _ _ hks⟩
        obtain ⟨g, hg⟩ := hred
        rw [hg]
        cases hps : ps with
        | nil =>
          rw [findAt_single, findAt_single, lookupF_update_ne _ _ _ _ hk]
        | cons a bs =>
          rw [findAt_cons _ _ _ (by simp), findAt_cons _ _ _ (by simp),
            lookupF_update_ne _ _ _ _ hk]

theorem ofMeas_children (now : Int) (m : Meas) :
    (Result.ofMeas now m).children = [] := by
  unfold Result.ofMeas
  split <;> rfl

theorem ofMeas_ended_samples (now : Int) (m : Meas) (h : m.ended = true) :
    (Result.ofMeas now m).samples = 1 := by
  simp [Result.ofMeas, h, Result.samples]

theorem ofMeas_running_samples (now : Int) (m : Meas) (h : m.ended = false) :
    (Result.ofMeas now m).samples = 0 := by
  simp [Result.ofMeas, h, Result.samples]

/-- Locate-or-create-and-integrate touches no scalar statistics outside the
target path. -/
theorem scalAt_integAP_ne (now : Int) (m : Meas) :
    ∀ (pp p : List Key) (F : Forest), p ≠ pp ++ [m.key] →
      scalAt p (integAP now m pp F) = scalAt p F := by
  intro pp
  induction pp with
  | nil =>
    intro p F hp
    show scalAt p (integrateHere now m F) = scalAt p F
    unfold integrateHere
    cases hl : lookupF m.key F with
    | some r =>
      rw [show updateF m.key (Result.integrate now m) F
            = updateAt [m.key] (Result.integrate now m) F from rfl]
      exact scalAt_updateAt_ne _ (integrate_children now m) [m.key] p F
        (by simpa using hp)
    | none =>
      cases p with
      | nil => rfl
      | cons k ps =>
        unfold scalAt
        by_cases hk : k = m.key
        · subst hk
          have hps : ps ≠ [] := fun hc => hp (by simp [hc])
          rw [findAt_cons _ _ _ hps, findAt_cons _ _ _ hps, hl,
            lookupF_append_self _ _ _ hl]
          simp [ofMeas_children, findAt_nil_forest]
        · cases hps : ps with
          | nil =>
            rw [findAt_single, findAt_single,
              lookupF_append_ne _ _ _ _ (fun hh => hk hh.symm)]
          | cons a bs =>
            rw [findAt_cons _ _ _ (by simp), findAt_cons _ _ _ (by simp),
              lookupF_append_ne _ _ _ _ (fun hh => hk hh.symm)]
  | cons k0 ks ih =>
    intro p F hp
    show scalAt p
        (updateF k0 (fun r => r.setChildren (integAP now m ks r.children)) F)
      = scalAt p F
    cases p with
    | nil => rfl
    | cons k ps =>
      by_cases hk : k = k0
      · subst hk
        cases hlf : lookupF k F with
        | none => rw [updateF_absent _ _ _ hlf]
        | some r =>
          unfold scalAt
          by_cases hps : ps = []
          · subst hps
            rw [findAt_single, findAt_single, lookupF_update_self, hlf]
            simp only [Option.map_some']
            rw [setChildren_scal5]
          · rw [findAt_cons _ _ _ hps, findAt_cons _ _ _ hps,
              lookupF_update_self, hlf]
            simp only [Option.map_some', setChildren_children]
            have hrec := ih ps r.children (fun hc => hp (by simp [hc]))
            simpa only [scalAt] using hrec
      · unfold scalAt
        cases hps : ps with
        | nil => rw [findAt_single, findAt_single, lookupF_update_ne _ _ _ _ hk]
        | cons a bs =>
          rw [findAt_cons _ _ _ (by simp), findAt_cons _ _ _ (by simp),
            lookupF_update_ne _ _ _ _ hk]

/-- Decompose resolvability of a cons path. -/
theorem existsAt_cons_elim (k : Key) (ks : List Key) (F : Forest)
    (h : existsAtB (k :: ks) F = true) :
    ∃ r, lookupF k F = some r ∧ existsAtB ks r.children = true := by
  have hsome : (findAt (k :: ks) F).isSome = true := by
    simpa [existsAtB] using h
  by_cases hks : ks = []
  · subst hks
    rw [findAt_single] at hsome
    cases hl : lookupF k F with
    | none => rw [hl] at hsome; simp at hsome
    | some r => exact ⟨r, rfl, rfl⟩
  · rw [findAt_cons _ _ _ hks] at hsome
    cases hl : lookupF k F with
    | none => rw [hl] at hsome; simp at hsome
    | some r =>
      rw [hl] at hsome
      exact ⟨r, rfl, by simp [existsAtB, hsome]⟩

/-- After locate-or-create-and-integrate, the target path resolves. -/
theorem existsAt_target_integAP (now : Int) (m : Meas) :
    ∀ (pp : List Key) (F : Forest), existsAtB pp F = true →
      existsAtB (pp ++ [m.key]) (integAP now m pp F) = true := by
  intro pp
  induction pp with
  | nil =>
    intro F _
    show existsAtB [m.key] (integrateHere now m F) = true
    unfold integrateHere existsAtB
    cases hl : lookupF m.key F with
    | some r => simp [findAt_single, lookupF_update_self, hl]
    | none => simp [findAt_single, lookupF_append_self _ _ _ hl]
  | cons k0 ks ih =>
    intro F hex
    obtain ⟨r, hl, hex'⟩ := existsAt_cons_elim k0 ks F hex
    have htail : ks ++ [m.key] ≠ [] := by simp
    have hrec := ih r.children hex'
    show existsAtB (k0 :: (ks ++ [m.key]))
        (updateF k0 (fun r => r.setChildren (integAP now m ks r.children)) F)
      = true
    unfold existsAtB
    simp only [List.isEmpty_cons, Bool.false_or]
    rw [findAt_cons _ _ _ htail, lookupF_update_self, hl]
    simp only [Option.map_some', setChildren_children]
    simpa [existsAtB, htail] using hrec

/-- A path that resolves has a resolving proper prefix. -/
theorem prefix_resolves (x : Key) :
    ∀ (pp : List Key) (F : Forest), (findAt (pp ++ [x]) F).isSome = true →
      existsAtB pp F = true := by
  intro pp
  induction pp with
  | nil => intro F _; rfl
  | cons k0 ks ih =>
    intro F h
    have htail : ks ++ [x] ≠ [] := by simp
    rw [show (k0 :: ks) ++ [x] = k0 :: (ks ++ [x]) from rfl,
      findAt_cons _ _ _ htail] at h
    cases hl : lookupF k0 F with
    | none => rw [hl] at h; simp at h
    | some r =>
      rw [hl] at h
      have hrec := ih r.children h
      unfold existsAtB
      simp only [List.isEmpty_cons, Bool.false_or]
      by_cases hks : ks = []
      · subst hks; simp [findAt_single, hl]
      · rw [findAt_cons _ _ _ hks, hl]
        unfold existsAtB at hrec
        simpa [hks] using hrec

/-- Locate-or-create-and-integrate never removes a node. -/
theorem existsAt_integAP_mono (now : Int) (m : Meas) (pp r : List Key)
    (F : Forest) (h : existsAtB r F = true) :
    existsAtB r (integAP now m pp F) = true := by
  by_cases hr : r = pp ++ [m.key]
  · subst hr
    apply existsAt_target_integAP
    have hsome : (findAt (pp ++ [m.key]) F).isSome = true := by
      simpa [existsAtB] using h
    exact prefix_resolves _ pp F hsome
  · rcases r with _ | ⟨a, bs⟩
    · rfl
    · have hsc := scalAt_integAP_ne now m pp (a :: bs) F hr
      have h2 := isSome_congr _ _ _ hsc
      unfold existsAtB at h ⊢
      simp only [List.isEmpty_cons, Bool.false_or] at h ⊢
      rw [h2]; exact h

/-- The ended case of `Integrate` (or node creation) at the target path adds
exactly one to its sample count, provided the parent path resolves. -/
theorem samplesAt_integAP_ended (now : Int) (m : Meas) (hm : m.ended = true) :
    ∀ (pp : List Key) (F : Forest), existsAtB pp F = true →
      samplesAt (pp ++ [m.key]) (integAP now m pp F)
        = samplesAt (pp ++ [m.key]) F + 1 := by
  intro pp
  induction pp with
  | nil =>
    intro F _
    show samplesAt [m.key] (integrateHere now m F) = samplesAt [m.key] F + 1
    unfold integrateHere samplesAt
    cases hl : lookupF m.key F with
    | some r =>
      rw [findAt_single, findAt_single, lookupF_update_self, hl]
      show (r.integrate now m).samples = r.samples + 1
      exact integrate_ended_samples now m r hm
    | none =>
      rw [findAt_single, findAt_single, lookupF_append_self _ _ _ hl, hl]
      show (Result.ofMeas now m).samples = 0 + 1
      rw [ofMeas_ended_samples now m hm]
      omega
  | cons k0 ks ih =>
    intro F hex
    obtain ⟨r, hl, hex'⟩ := existsAt_cons_elim k0 ks F hex
    have htail : ks ++ [m.key] ≠ [] := by simp
    show samplesAt (k0 :: (ks ++ [m.key]))
        (updateF k0 (fun r => r.setChildren (integAP now m ks r.children)) F)
      = samplesAt (k0 :: (ks ++ [m.key])) F + 1
    unfold samplesAt
    rw [findAt_cons _ _ _ htail, findAt_cons _ _ _ htail,
      lookupF_update_self, hl]
    simp only [Option.map_some', setChildren_children]
    have hrec := ih r.children hex'
    simpa only [samplesAt] using hrec

/-- A still-running integrate (or creation) changes no sample count at all. -/
theorem samplesAt_integAP_running (now : Int) (m : Meas) (hm : m.ended = false) :
    ∀ (pp p : List Key) (F : Forest),
      samplesAt p (integAP now m pp F) = samplesAt p F := by
  have htarget : ∀ (pp : List Key) (F : Forest),
      samplesAt (pp ++ [m.key]) (integAP now m pp F)
        = samplesAt (pp ++ [m.key]) F := by
    intro pp
    induction pp with
    | nil =>
      intro F
      show samplesAt [m.key] (integrateHere now m F) = samplesAt [m.key] F
      unfold integrateHere samplesAt
      cases hl : lookupF m.key F with
      | some r =>
        rw [findAt_single, findAt_single, lookupF_update_self, hl]
        show (r.integrate now m).samples = r.samples
        have := integrate_running_stats4 now m r hm
        simpa [stats4] using congrArg (fun t => t.1) this
      | none =>
        rw [findAt_single, findAt_single, lookupF_append_self _ _ _ hl, hl]
        show (Result.ofMeas now m).samples = 0
        exact ofMeas_running_samples now m hm
    | cons k0 ks ih =>
      intro F
      show samplesAt (k0 :: (ks ++ [m.key]))
          (updateF k0 (fun r => r.setChildren (integAP now m ks r.children)) F)
        = samplesAt (k0 :: (ks ++ [m.key])) F
      have htail : ks ++ [m.key] ≠ [] := by simp
      unfold samplesAt
      cases hl : lookupF k0 F with
      | none =>
        rw [findAt_cons _ _ _ htail, findAt_cons _ _ _ htail]
        rw [updateF_absent _ _ _ hl]
      | some r =>
        rw [findAt_cons _ _ _ htail, findAt_cons _ _ _ htail,
          lookupF_update_self, hl]
        simp only [Option.map_some', setChildren_children]
        simpa only [samplesAt] using ih r.children
  intro pp p F
  by_cases hp : p = pp ++ [m.key]
  · subst hp; exact htarget pp F
  · exact samplesAt_congr _ _ _ (scalAt_integAP_ne now m pp p F hp)

/-- The ancestor climb over still-running measurements perturbs no settled
statistics anywhere in the forest. -/
theorem statsAt_climb (now : Int) :
    ∀ (ms : List Meas) (F : Forest), (∀ x ∈ ms, x.ended = false) →
      ∀ p, statsAt p (climbUp now ms F) = statsAt p F := by
  intro ms
  induction ms with
  | nil => intro F _ p; rfl
  | cons x rest ih =>
    intro F hrun p
    have hx : x.ended = false := hrun x (by simp)
    have hrest : ∀ y ∈ rest, y.ended = false := fun y hy => hrun y (by simp [hy])
    unfold climbUp
    rw [hx]
    simp only [Bool.false_eq_true, if_false]
    cases hc : x.compiled with
    | none => exact ih F hrest p
    | some q =>
      rw [ih _ hrest p]
      by_cases hpq : p = q
      · subst hpq
        unfold statsAt
        rw [findAt_updateAt_self]
        cases findAt p F with
        | none => rfl
        | some r =>
          simp only [Option.map_some']
          rw [integrate_running_stats4 now x r hx]
      · exact statsAt_congr _ _ _
          (scalAt_updateAt_ne _ (integrate_children now x) q p F hpq)

/-- The ancestor climb leaves any node with a completed sample fully
unchanged. -/
theorem scalAt_climb_nonzero (now : Int) :
    ∀ (ms : List Meas) (F : Forest) (q : List Key)
      (st : Int × Int × Int × Int × Int),
      (∀ x ∈ ms, x.ended = false) → scalAt q F = some st → st.1 ≠ 0 →
      scalAt q (climbUp now ms F) = some st := by
  intro ms
  induction ms with
  | nil => intro F q st _ h _; exact h
  | cons x rest ih =>
    intro F q st hrun hq hnz
    have hx : x.ended = false := hrun x (by simp)
    have hrest : ∀ y ∈ rest, y.ended = false := fun y hy => hrun y (by simp [hy])
    unfold climbUp
    rw [hx]
    simp only [Bool.false_eq_true, if_false]
    cases hc : x.compiled with
    | none => exact ih F q st hrest hq hnz
    | some qx =>
      apply ih _ q st hrest _ hnz
      by_cases hqq : q = qx
      · subst hqq
        unfold scalAt at hq ⊢
        rw [findAt_updateAt_self]
        cases hf : findAt q F with
        | none => rw [hf] at hq; simp at hq
        | some r =>
          rw [hf] at hq
          simp only [Option.map_some'] at hq ⊢
          have hr : r.samples ≠ 0 := by
            have : (scal5 r).1 = r.samples := rfl
            rw [← this, Option.some_inj.mp hq]
            exact hnz
          rw [integrate_running_id now x r hx hr]
          exact hq
      · rw [scalAt_updateAt_ne _ (integrate_children now x) qx q F hqq]
        exact hq

theorem afterCompileDump_results (now : Int) (s : PState) :
    (afterCompileDump now s).results = s.results := by
  unfold afterCompileDump
  split <;> rfl

/-- The fast path of `Compile` in closed form. -/
theorem compileM_fast_eq (now : Int) (s : PState) (c0 : List Meas)
    (p m : Meas) (pp : List Key) (hch : s.chain = (c0 ++ [p]) ++ [m])
    (hpc : p.compiled = some pp) (hm : m.ended = true) :
    compileM now s = afterCompileDump now
      { s with chain := c0 ++ [p],
               results := climbUp now (c0 ++ [p]).reverse
                 (integAP now m pp s.results),
               active := insertActive m.build s.active } := by
  unfold compileM
  rw [hch]
  simp only [List.getLast?_concat, List.dropLast_concat, hpc, hm, if_true]

end LangulusProfiler

namespace LangulusProfiler

/-! ## Claim C10 — fast-path ancestor refresh -/

/-- C10: a fast-path compile (parent's `compiled` cache set, measurement
ended, all ancestors still running) leaves the settled statistics
(samples/min/max/average) of every node other than the compiled child's
untouched — the ancestor climb re-integrates each running ancestor, which can
only refresh the provisional `total` of nodes without completed samples; any
node with completed samples keeps even its `total`. -/
theorem fast_path_refreshes_only_running_totals (now : Int) (s : PState)
    (c0 : List Meas) (p m : Meas) (pp : List Key)
    (hch : s.chain = (c0 ++ [p]) ++ [m])
    (hpc : p.compiled = some pp) (hm : m.ended = true)
    (hrun : ∀ x ∈ c0 ++ [p], x.ended = false) :
    (∀ q, q ≠ pp ++ [m.key] →
        statsAt q (compileM now s).results = statsAt q s.results) ∧
      (∀ q st, q ≠ pp ++ [m.key] → scalAt q s.results = some st →
        st.1 ≠ 0 → scalAt q (compileM now s).results = some st) := by
  rw [compileM_fast_eq now s c0 p m pp hch hpc hm]
  rw [afterCompileDump_results]
  have hrev : ∀ x ∈ (c0 ++ [p]).reverse, x.ended = false := by
    intro x hx
    exact hrun x (List.mem_reverse.mp hx)
  constructor
  · intro q hq
    rw [statsAt_climb now _ _ hrev q]
    exact statsAt_congr _ _ _ (scalAt_integAP_ne now m pp q s.results hq)
  · intro q st hq hst hnz
    apply scalAt_climb_nonzero now _ _ q st hrev _ hnz
    rw [scalAt_integAP_ne now m pp q s.results hq]
    exact hst

/-- Witness for C10: ancestor "m" (samples 0, provisional total) is climbed
while child ("m","a") is compiled; the ancestor's settled statistics at path
[("m",·)] are untouched. -/
theorem fast_path_refreshes_only_running_totals_witness :
    statsAt [("m", cbuild)]
        (compileM 5 ⟨[⟨"m", cbuild, 0, 0, false, some [("m", cbuild)]⟩,
            ⟨"a", cbuild, 1, 2, true, none⟩],
          [(("m", cbuild), Result.mk "m" cbuild 9 9 9 3 0 [])],
          [], 0, 0, []⟩).results
      = statsAt [("m", cbuild)]
          (⟨[⟨"m", cbuild, 0, 0, false, some [("m", cbuild)]⟩,
              ⟨"a", cbuild, 1, 2, true, none⟩],
            [(("m", cbuild), Result.mk "m" cbuild 9 9 9 3 0 [])],
            [], 0, 0, []⟩ : PState).results :=
  (fast_path_refreshes_only_running_totals 5 _ []
      ⟨"m", cbuild, 0, 0, false, some [("m", cbuild)]⟩
      ⟨"a", cbuild, 1, 2, true, none⟩ [("m", cbuild)] rfl rfl rfl
      (by decide)).1 [("m", cbuild)] (by decide)

end LangulusProfiler

namespace LangulusProfiler

/-! ## Claims C4, C5, C6 — statistics merge -/

/-- Invariant carried by every reachable `Result` node: the sample counter is
nonnegative, and once at least one sample completed, `min ≤ average ≤ max`. -/
theorem reachableResult_invariant (r : Result) (h : ReachableResult r) :
    0 ≤ r.samples ∧ (1 ≤ r.samples → r.min ≤ r.average ∧ r.average ≤ r.max) := by
  induction h with
  | init m now hm =>
    unfold Result.ofMeas
    by_cases he : m.ended <;>
      simp [he, Result.samples, Result.min, Result.max, Result.average]
  | step r m now hm hr ih =>
    obtain ⟨n, b, mn, mx, av, tt, s, ch⟩ := r
    simp only [Result.samples, Result.min, Result.max, Result.average] at ih
    by_cases he : m.ended = true
    · by_cases hs : s = 0
      · simp [Result.integrate, he, hs, Result.samples, Result.min, Result.max,
          Result.average]
      · have hs1 : 1 ≤ s := by omega
        obtain ⟨hmn, hmx⟩ := ih.2 hs1
        set d := m.stop - m.start with hdd
        have hmn'le : (if d < mn then d else mn) ≤ av ∧ (if d < mn then d else mn) ≤ d := by
          constructor <;> (split <;> omega)
        have hmx'ge : av ≤ (if d > mx then d else mx) ∧ d ≤ (if d > mx then d else mx) := by
          constructor <;> (split <;> omega)
        have hsp : (0 : Int) < s + 1 := by omega
        have hlow : (s + 1) * (if d < mn then d else mn) ≤ s * av + d := by
          nlinarith [hmn'le.1, hmn'le.2]
        have hhigh : s * av + d ≤ (s + 1) * (if d > mx then d else mx) := by
          nlinarith [hmx'ge.1, hmx'ge.2]
        have h1 : (if d < mn then d else mn) ≤ (s * av + d) / (s + 1) := by
          calc (if d < mn then d else mn)
              = (s + 1) * (if d < mn then d else mn) / (s + 1) := by
                rw [Int.mul_ediv_cancel_left _ (by omega)]
            _ ≤ (s * av + d) / (s + 1) := Int.ediv_le_ediv hsp hlow
        have h2 : (s * av + d) / (s + 1) ≤ (if d > mx then d else mx) := by
          calc (s * av + d) / (s + 1)
              ≤ (s + 1) * (if d > mx then d else mx) / (s + 1) :=
                Int.ediv_le_ediv hsp hhigh
            _ = (if d > mx then d else mx) := by
                rw [Int.mul_ediv_cancel_left _ (by omega)]
        simp only [Result.integrate, he, hs, Bool.not_true, Bool.false_eq_true,
          if_false, if_neg hs, Result.samples, Result.min, Result.max, Result.average]
        refine ⟨by omega, fun _ => ⟨?_, ?_⟩⟩
        · simpa [hdd] using h1
        · simpa [hdd] using h2
    · have he' : m.ended = false := by simpa using he
      by_cases hs : s = 0 <;>
        simpa [Result.integrate, he', hs, Result.samples, Result.min, Result.max,
          Result.average] using ih

/-- C6: for every Result node, after any sequence of Result construction and
Integrate calls, whenever `samples ≥ 1` the invariant
`min ≤ average ≤ max` holds. -/
theorem result_min_le_average_le_max (r : Result) (h : ReachableResult r)
    (hs : 1 ≤ r.samples) : r.min ≤ r.average ∧ r.average ≤ r.max :=
  (reachableResult_invariant r h).2 hs

/-- Witness for C6 at the node built from a single completed 5-tick sample. -/
theorem result_min_le_average_le_max_witness :
    1 ≤ (Result.ofMeas 0 (endedMeas 5)).samples ∧
      ((Result.ofMeas 0 (endedMeas 5)).min ≤ (Result.ofMeas 0 (endedMeas 5)).average ∧
        (Result.ofMeas 0 (endedMeas 5)).average ≤ (Result.ofMeas 0 (endedMeas 5)).max) :=
  ⟨by decide,
   result_min_le_average_le_max _ (.init (endedMeas 5) 0 (by decide)) (by decide)⟩

/-- C5: integrating a still-running measurement touches only `total`
(set to the elapsed-so-far value) and only when `samples = 0`; in every other
still-running case the node is returned unchanged. -/
theorem integrate_running_total_only (r : Result) (m : Meas) (now : Int)
    (h : m.ended = false) :
    (r.samples = 0 → r.integrate now m = r.withTotal (now - m.start)) ∧
      (r.samples ≠ 0 → r.integrate now m = r) :=
  integrateRunningSplit r m now h

/-- Witness for C5: a running measurement integrated into a zero-sample node
rewrites only `total`; into a one-sample node it changes nothing. -/
theorem integrate_running_total_only_witness :
    ((Result.mk "x" ⟨0, 0, 0, 0⟩ 5 7 6 9 0 []).integrate 11
        ⟨"x", ⟨0, 0, 0, 0⟩, 2, 2, false, none⟩
      = (Result.mk "x" ⟨0, 0, 0, 0⟩ 5 7 6 9 0 []).withTotal (11 - 2)) ∧
    ((Result.mk "y" ⟨0, 0, 0, 0⟩ 5 7 6 9 1 []).integrate 11
        ⟨"y", ⟨0, 0, 0, 0⟩, 2, 2, false, none⟩
      = Result.mk "y" ⟨0, 0, 0, 0⟩ 5 7 6 9 1 []) :=
  ⟨(integrate_running_total_only _ _ 11 rfl).1 (by decide),
   (integrate_running_total_only _ _ 11 rfl).2 (by decide)⟩

/-- C4 counterexample: the durations {4, 1, 1} integrated in the order
(4, 1, 1) yield average 1 while the order (1, 1, 4) yields average 2 — the
incremental integer-division mean is order dependent, and the first order is
a full time-unit (50 %) away from the exact mean 2, beyond any floating-point
tolerance. -/
theorem average_order_dependent_counterexample :
    (integSeq 4 [1, 1]).average = 1 ∧ (integSeq 1 [1, 4]).average = 2 ∧
      (integSeq 4 [1, 1]).average ≠ (integSeq 1 [1, 4]).average ∧
      3 * (integSeq 4 [1, 1]).average ≠ 4 + 1 + 1 := by
  decide

/-- One `Integrate` step on a node with at least one completed sample keeps
the truncation deficit `S - samples·average` nonnegative and grows it by at
most `samples`. -/
theorem integ_step_bound (r : Result) (e S : Int)
    (hk : 1 ≤ r.samples) (havg : 0 ≤ r.average)
    (hlo : 0 ≤ S - r.samples * r.average)
    (hhi : 2 * (S - r.samples * r.average) ≤ r.samples * (r.samples - 1))
    (he : 0 ≤ e) :
    (r.integrate 0 (endedMeas e)).samples = r.samples + 1 ∧
      0 ≤ (r.integrate 0 (endedMeas e)).average ∧
      0 ≤ (S + e) - (r.integrate 0 (endedMeas e)).samples
            * (r.integrate 0 (endedMeas e)).average ∧
      2 * ((S + e) - (r.integrate 0 (endedMeas e)).samples
            * (r.integrate 0 (endedMeas e)).average)
        ≤ (r.integrate 0 (endedMeas e)).samples
            * ((r.integrate 0 (endedMeas e)).samples - 1) := by
  obtain ⟨n, b, mn, mx, av, tt, s, ch⟩ := r
  simp only [Result.samples, Result.average] at hk havg hlo hhi ⊢
  have hs0 : ¬ s = 0 := by omega
  simp only [Result.integrate, endedMeas, Bool.not_true, Bool.false_eq_true, if_false,
    if_neg hs0, Result.samples, Result.average]
  have hsimp : (s + 1 - 1) * av + (e - 0) = s * av + e := by ring
  rw [hsimp]
  have hNnn : 0 ≤ s * av + e := by nlinarith
  have hkp : (0 : Int) < s + 1 := by omega
  have hdm := Int.ediv_add_emod (s * av + e) (s + 1)
  have hmn := Int.emod_nonneg (s * av + e) (show (s + 1 : Int) ≠ 0 by omega)
  have hmx := Int.emod_lt_of_pos (s * av + e) hkp
  have hq : 0 ≤ (s * av + e) / (s + 1) := Int.ediv_nonneg hNnn (by omega)
  refine ⟨trivial, hq, ?_, ?_⟩ <;> nlinarith [hdm, hmn, hmx]

/-- Folding further completed durations over a node that already satisfies the
truncation-deficit invariant preserves it. -/
theorem integ_fold_bound (ds : List Int) :
    ∀ (r : Result) (S : Int), 1 ≤ r.samples → 0 ≤ r.average →
      0 ≤ S - r.samples * r.average →
      2 * (S - r.samples * r.average) ≤ r.samples * (r.samples - 1) →
      (∀ e ∈ ds, 0 ≤ e) →
      ((ds.foldl (fun r e => r.integrate 0 (endedMeas e)) r).samples
          = r.samples + ds.length ∧
        0 ≤ (S + ds.sum)
            - (ds.foldl (fun r e => r.integrate 0 (endedMeas e)) r).samples
              * (ds.foldl (fun r e => r.integrate 0 (endedMeas e)) r).average ∧
        2 * ((S + ds.sum)
            - (ds.foldl (fun r e => r.integrate 0 (endedMeas e)) r).samples
              * (ds.foldl (fun r e => r.integrate 0 (endedMeas e)) r).average)
          ≤ (ds.foldl (fun r e => r.integrate 0 (endedMeas e)) r).samples
              * ((ds.foldl (fun r e => r.integrate 0 (endedMeas e)) r).samples - 1)) := by
  induction ds with
  | nil =>
    intro r S hk havg hlo hhi _
    refine ⟨by simp, by simpa using hlo, by simpa using hhi⟩
  | cons e rest ih =>
    intro r S hk havg hlo hhi hnn
    have he : 0 ≤ e := hnn e (by simp)
    obtain ⟨h1, h2, h3, h4⟩ := integ_step_bound r e S hk havg hlo hhi he
    have hrec := ih (r.integrate 0 (endedMeas e)) (S + e) (by omega) h2
      (by rw [h1] at h3 ⊢; exact h3) (by rw [h1] at h4 ⊢; exact h4)
      (fun x hx => hnn x (by simp [hx]))
    simp only [List.foldl_cons, List.length_cons, List.sum_cons]
    refine ⟨?_, ?_, ?_⟩
    · rw [hrec.1, h1]; push_cast; ring
    · have := hrec.2.1
      have harr : S + e + rest.sum = S + (e + rest.sum) := by ring
      rwa [harr] at this
    · have := hrec.2.2
      have harr : S + e + rest.sum = S + (e + rest.sum) := by ring
      rwa [harr] at this

/-- C4 (amended): the average is stored as an integer time and updated with the
truncating division of the source, so after integrating the nonnegative
durations `d, ds` (in that order, `n = 1 + ds.length` samples) the node
satisfies `0 ≤ (d + sum ds) - n·average` and
`2·((d + sum ds) - n·average) ≤ n·(n-1)` — the average underestimates the
exact arithmetic mean by at most `(n-1)/2` time units and may depend on the
integration order, as the counterexample shows; exact order-independent
equality with the mean does not hold. -/
theorem average_truncation_bound (d : Int) (ds : List Int)
    (hd : 0 ≤ d) (hds : ∀ e ∈ ds, 0 ≤ e) :
    (integSeq d ds).samples = 1 + ds.length ∧
      0 ≤ (d + ds.sum) - (integSeq d ds).samples * (integSeq d ds).average ∧
      2 * ((d + ds.sum) - (integSeq d ds).samples * (integSeq d ds).average)
        ≤ (integSeq d ds).samples * ((integSeq d ds).samples - 1) := by
  have hbase : (Result.ofMeas 0 (endedMeas d)).samples = 1 ∧
      (Result.ofMeas 0 (endedMeas d)).average = d := by
    simp [Result.ofMeas, endedMeas, Result.samples, Result.average]
  have h := integ_fold_bound ds (Result.ofMeas 0 (endedMeas d)) d
    (by rw [hbase.1]) (by rw [hbase.2]; exact hd)
    (by rw [hbase.1, hbase.2]; omega) (by rw [hbase.1, hbase.2]; omega) hds
  unfold integSeq
  exact ⟨by rw [h.1, hbase.1], h.2.1, h.2.2⟩

/-- Witness for the amended C4 at the counterexample durations (4, 1, 1). -/
theorem average_truncation_bound_witness :
    (integSeq 4 [1, 1]).samples = 1 + ([1, 1] : List Int).length ∧
      0 ≤ (4 + ([1, 1] : List Int).sum)
          - (integSeq 4 [1, 1]).samples * (integSeq 4 [1, 1]).average ∧
      2 * ((4 + ([1, 1] : List Int).sum)
          - (integSeq 4 [1, 1]).samples * (integSeq 4 [1, 1]).average)
        ≤ (integSeq 4 [1, 1]).samples * ((integSeq 4 [1, 1]).samples - 1) :=
  average_truncation_bound 4 [1, 1] (by decide) (by decide)

end LangulusProfiler

namespace LangulusProfiler

/-! ## C1 helper lemmas — chain-cache invariants -/

theorem samplesAt_empty (p : List Key) : samplesAt p ([] : Forest) = 0 := by
  unfold samplesAt
  rw [findAt_nil_forest]

theorem samplesAt_eq_of_statsAt (p : List Key) (F1 F2 : Forest)
    (h : statsAt p F1 = statsAt p F2) : samplesAt p F1 = samplesAt p F2 := by
  unfold statsAt at h
  unfold samplesAt
  cases h1 : findAt p F1 <;> cases h2 : findAt p F2 <;>
    rw [h1, h2] at h <;> simp_all [stats4]

theorem isSome_of_statsAt (p : List Key) (F1 F2 : Forest)
    (h : statsAt p F1 = statsAt p F2) :
    (findAt p F1).isSome = (findAt p F2).isSome := by
  unfold statsAt at h
  cases h1 : findAt p F1 <;> cases h2 : findAt p F2 <;>
    rw [h1, h2] at h <;> simp_all

theorem integAP_isSome_mono (now : Int) (m : Meas) (pp r : List Key)
    (F : Forest) (h : (findAt r F).isSome = true) :
    (findAt r (integAP now m pp F)).isSome = true := by
  cases r with
  | nil => simp [findAt] at h
  | cons a bs =>
    have hex : existsAtB (a :: bs) F = true := by simp [existsAtB, h]
    have := existsAt_integAP_mono now m pp (a :: bs) F hex
    simpa [existsAtB] using this

theorem climb_samplesAt (now : Int) (ms : List Meas) (F : Forest)
    (hrun : ∀ x ∈ ms, x.ended = false) (p : List Key) :
    samplesAt p (climbUp now ms F) = samplesAt p F :=
  samplesAt_eq_of_statsAt _ _ _ (statsAt_climb now ms F hrun p)

theorem climb_isSome (now : Int) (ms : List Meas) (F : Forest)
    (hrun : ∀ x ∈ ms, x.ended = false) (p : List Key) :
    (findAt p (climbUp now ms F)).isSome = (findAt p F).isSome :=
  isSome_of_statsAt _ _ _ (statsAt_climb now ms F hrun p)

theorem chainOk_mono (F F' : Forest)
    (hm : ∀ r, (findAt r F).isSome = true → (findAt r F').isSome = true) :
    ∀ (pp : List Key) (l : List Meas), ChainOk F pp l → ChainOk F' pp l := by
  intro pp l h
  induction h with
  | nil pp => exact .nil pp
  | consNone pp x rest hx hrest => exact .consNone pp x rest hx hrest
  | consSome pp x rest q hx hq hex hrest ih =>
    exact .consSome pp x rest q hx hq (hm q hex) ih

theorem chainOk_of_allNone (F : Forest) (pp : List Key) :
    ∀ l : List Meas, allNone l → ChainOk F pp l := by
  intro l h
  cases l with
  | nil => exact .nil pp
  | cons x rest =>
    exact .consNone pp x rest (h x (by simp))
      (fun y hy => h y (by simp [hy]))

theorem chainOk_snoc_none (F : Forest) (x : Meas) (hx : x.compiled = none) :
    ∀ (pp : List Key) (l : List Meas), ChainOk F pp l →
      ChainOk F pp (l ++ [x]) := by
  intro pp l h
  induction h with
  | nil pp => exact .consNone pp x [] hx (fun y hy => by simp at hy)
  | consNone pp y rest hy hrest =>
    refine .consNone pp y (rest ++ [x]) hy ?_
    intro z hz
    rcases List.mem_append.mp hz with hz | hz
    · exact hrest z hz
    · simp at hz; subst hz; exact hx
  | consSome pp y rest q hy hq hex hrest ih =>
    exact .consSome pp y (rest ++ [x]) q hy hq hex ih

theorem chainOk_append_last (F : Forest) :
    ∀ (l : List Meas) (pp : List Key) (x : Meas),
      ChainOk F pp (l ++ [x]) →
      ChainOk F pp l ∧
        (∀ q, x.compiled = some q →
          q = pp ++ keyPath l ++ [x.key] ∧ (findAt q F).isSome = true) := by
  intro l
  induction l with
  | nil =>
    intro pp x h
    cases h with
    | consNone _ _ _ hx _ =>
      exact ⟨.nil pp, fun q hq => by rw [hx] at hq; cases hq⟩
    | consSome _ _ _ q hx hq hex _ =>
      refine ⟨.nil pp, fun q' hq' => ?_⟩
      rw [hx] at hq'
      cases hq'
      exact ⟨by simpa [keyPath] using hq, hex⟩
  | cons y l' ih =>
    intro pp x h
    cases h with
    | consNone _ _ _ hy hrest =>
      have hx : x.compiled = none := hrest x (by simp)
      refine ⟨.consNone pp y l' hy (fun z hz => hrest z (by simp [hz])), ?_⟩
      intro q hq
      rw [hx] at hq; cases hq
    | consSome _ _ _ q hy hq hex hrest =>
      obtain ⟨h1, h2⟩ := ih q x hrest
      refine ⟨.consSome pp y l' q hy hq hex h1, ?_⟩
      intro q' hq'
      obtain ⟨h3, h4⟩ := h2 q' hq'
      refine ⟨?_, h4⟩
      rw [h3, hq]
      simp [keyPath]

theorem chainOk_none_after (F : Forest) :
    ∀ (l1 : List Meas) (pp : List Key) (x : Meas) (l2 : List Meas),
      ChainOk F pp (l1 ++ x :: l2) → x.compiled = none →
      allNone l2 := by
  intro l1
  induction l1 with
  | nil =>
    intro pp x l2 h hx
    cases h with
    | consNone _ _ _ _ hrest => exact hrest
    | consSome _ _ _ q hc _ _ _ => rw [hx] at hc; cases hc
  | cons y l1' ih =>
    intro pp x l2 h hx
    cases h with
    | consNone _ _ _ _ hrest =>
      intro z hz
      exact hrest z (by simp [hz])
    | consSome _ _ _ q _ _ _ hrest => exact ih q x l2 hrest hx

theorem chainOk_replace_last (F : Forest) (x y : Meas)
    (hk : y.key = x.key) (hc : y.compiled = x.compiled) :
    ∀ (l : List Meas) (pp : List Key),
      ChainOk F pp (l ++ [x]) → ChainOk F pp (l ++ [y]) := by
  intro l
  induction l with
  | nil =>
    intro pp h
    cases h with
    | consNone _ _ _ hx _ =>
      exact .consNone pp y [] (by rw [hc, hx]) (fun z hz => by simp at hz)
    | consSome _ _ _ q hx hq hex _ =>
      exact .consSome pp y [] q (by rw [hc, hx]) (by rw [hq, hk])
        hex (.nil q)
  | cons z l' ih =>
    intro pp h
    cases h with
    | consNone _ _ _ hz hrest =>
      refine .consNone pp z (l' ++ [y]) hz ?_
      intro w hw
      rcases List.mem_append.mp hw with hw | hw
      · exact hrest w (by simp [hw])
      · simp at hw; subst hw
        rw [hc]
        exact hrest x (by simp)
    | consSome _ _ _ q hz hq hex hrest =>
      exact .consSome pp z (l' ++ [y]) q hz hq hex (ih q hrest)

theorem keyPath_append (l1 l2 : List Meas) :
    keyPath (l1 ++ l2) = keyPath l1 ++ keyPath l2 := by
  simp [keyPath]

theorem keyPath_setCompiledAll :
    ∀ (l : List Meas) (pp : List Key), keyPath (setCompiledAll pp l) = keyPath l := by
  intro l
  induction l with
  | nil => intro pp; rfl
  | cons x rest ih =>
    intro pp
    simp [setCompiledAll, keyPath, Meas.key] at ih ⊢
    exact ih _

theorem allRunning_setCompiledAll :
    ∀ (l : List Meas) (pp : List Key), allRunning l →
      allRunning (setCompiledAll pp l) := by
  intro l
  induction l with
  | nil => intro pp _; intro x hx; simp [setCompiledAll] at hx
  | cons x rest ih =>
    intro pp h
    intro z hz
    simp only [setCompiledAll, List.mem_cons] at hz
    rcases hz with hz | hz
    · subst hz; exact h x (by simp)
    · exact ih _ (fun y hy => h y (by simp [hy])) z hz

theorem concat_inj {α : Type} (l1 l2 : List α) (a b : α)
    (h : l1 ++ [a] = l2 ++ [b]) : l1 = l2 ∧ a = b := by
  have hlen : l1.length = l2.length := by
    have := congrArg List.length h
    simpa using this
  obtain ⟨h1, h2⟩ := List.append_inj h (by simpa using hlen)
  exact ⟨h1, by simpa using h2⟩

theorem meas_set_compiled_self (x : Meas) (q : List Key)
    (h : x.compiled = some q) : { x with compiled := some q } = x := by
  obtain ⟨n, b, st, en, ed, cp⟩ := x
  simp at h
  simp [h]

end LangulusProfiler

namespace LangulusProfiler

/-- Specification of the slow path of `Compile`: on a chain suffix
`c ++ [m]` under path `pp` (all of `c` still running, `m` ended and uncached,
caches consistent, `pp` resolvable), the walk fills every cache of `c`,
integrates exactly one completed sample at `pp ++ keyPath c ++ [m.key]`,
leaves every other sample count unchanged, keeps the caches consistent, and
removes no node from the forest. -/
theorem slowWalk_spec (now : Int) :
    ∀ (c : List Meas) (m : Meas) (pp : List Key) (F : Forest)
      (act : List Build) (hp : Bool),
      m.ended = true → m.compiled = none → allRunning c →
      ChainOk F pp (c ++ [m]) → existsAtB pp F = true →
      (c = [] → hp = true) →
      (slowWalk now hp pp (c ++ [m]) F act).1 = setCompiledAll pp c ∧
        (∀ p', samplesAt p' (slowWalk now hp pp (c ++ [m]) F act).2.1
            = samplesAt p' F
              + (if p' = pp ++ keyPath c ++ [m.key] then 1 else 0)) ∧
        ChainOk (slowWalk now hp pp (c ++ [m]) F act).2.1 pp
          (setCompiledAll pp c) ∧
        (∀ r, (findAt r F).isSome = true →
          (findAt r (slowWalk now hp pp (c ++ [m]) F act).2.1).isSome = true) := by
  intro c
  induction c with
  | nil =>
    intro m pp F act hp hme hmc hrun hok hex hhp
    have hp' : hp = true := hhp rfl
    subst hp'
    have hred : slowWalk now true pp ([] ++ [m]) F act
        = ([], integAP now m pp F, insertActive m.build act) := by
      simp [slowWalk, hmc, hme]
    rw [hred]
    refine ⟨rfl, ?_, .nil pp, ?_⟩
    · intro p'
      by_cases hp' : p' = pp ++ [m.key]
      · subst hp'
        rw [samplesAt_integAP_ended now m hme pp F hex]
        simp [keyPath]
      · rw [samplesAt_congr _ _ _ (scalAt_integAP_ne now m pp p' F hp')]
        simp only [keyPath, List.map_nil, List.append_nil]
        rw [if_neg (by simpa [keyPath] using hp')]
        omega
    · intro r hr
      exact integAP_isSome_mono now m pp r F hr
  | cons x c' ih =>
    intro m pp F act hp hme hmc hrun hok hex hhp
    have hx : x.ended = false := hrun x (by simp)
    have hok' := hok
    rw [show (x :: c') ++ [m] = x :: (c' ++ [m]) from rfl] at hok'
    cases hok' with
    | consNone _ _ _ hxc hrest =>
      have hq : existsAtB (pp ++ [x.key]) (integAP now x pp F) = true :=
        existsAt_target_integAP now x pp F hex
      have hrec := ih m (pp ++ [x.key]) (integAP now x pp F) act true hme hmc
        (fun y hy => hrun y (by simp [hy]))
        (chainOk_of_allNone _ _ _ hrest) hq (fun _ => rfl)
      have hred : slowWalk now hp pp ((x :: c') ++ [m]) F act
          = ({ x with compiled := some (pp ++ [x.key]) }
              :: (slowWalk now true (pp ++ [x.key]) (c' ++ [m])
                    (integAP now x pp F) act).1,
             (slowWalk now true (pp ++ [x.key]) (c' ++ [m])
                  (integAP now x pp F) act).2) := by
        show slowWalk now hp pp (x :: (c' ++ [m])) F act = _
        simp [slowWalk, hxc, hx]
      rw [hred]
      refine ⟨?_, ?_, ?_, ?_⟩
      · show _ = setCompiledAll pp (x :: c')
        simp only [setCompiledAll]
        rw [hrec.1]
      · intro p'
        have hstep := samplesAt_integAP_running now x hx pp p' F
        rw [hrec.2.1 p', hstep]
        congr 2
        simp [keyPath, Meas.key]
      · show ChainOk _ pp (setCompiledAll pp (x :: c'))
        simp only [setCompiledAll]
        refine .consSome pp _ _ (pp ++ [x.key]) rfl (by simp [Meas.key]) ?_ ?_
        · apply hrec.2.2.2
          simpa [existsAtB] using hq
        · exact hrec.2.2.1
      · intro r hr
        exact hrec.2.2.2 r (integAP_isSome_mono now x pp r F hr)
    | consSome _ _ _ q0 hxc hq0 hex0 hrest =>
      have hrec := ih m q0 F act true hme hmc
        (fun y hy => hrun y (by simp [hy])) hrest
        (by simp [existsAtB, hex0]) (fun _ => rfl)
      have hred : slowWalk now hp pp ((x :: c') ++ [m]) F act
          = (x :: (slowWalk now true q0 (c' ++ [m]) F act).1,
             (slowWalk now true q0 (c' ++ [m]) F act).2) := by
        show slowWalk now hp pp (x :: (c' ++ [m])) F act = _
        simp [slowWalk, hxc]
      rw [hred]
      have hxeq : { x with compiled := some (pp ++ [x.key]) } = x := by
        rw [← hq0]
        exact meas_set_compiled_self x q0 hxc
      refine ⟨?_, ?_, ?_, ?_⟩
      · show _ = setCompiledAll pp (x :: c')
        simp only [setCompiledAll]
        rw [hxeq, hrec.1, hq0]
      · intro p'
        rw [hrec.2.1 p']
        congr 2
        rw [hq0]
        simp [keyPath, Meas.key]
      · show ChainOk _ pp (setCompiledAll pp (x :: c'))
        simp only [setCompiledAll]
        rw [hxeq]
        refine .consSome pp _ _ q0 hxc hq0 ?_ ?_
        · exact hrec.2.2.2 q0 hex0
        · rw [← hq0]
          exact hrec.2.2.1
      · exact hrec.2.2.2

end LangulusProfiler

namespace LangulusProfiler

theorem afterCompileDump_chain (now : Int) (s : PState) :
    (afterCompileDump now s).chain = s.chain := by
  unfold afterCompileDump
  split <;> rfl

theorem istop_eq (is : IState) (h : is.ps.chain ≠ []) :
    istop is = ⟨stopM is.clk is.ps,
      fun q => if q = keyPath is.ps.chain then is.counts q + 1 else is.counts q,
      is.clk + 1⟩ := by
  unfold istop
  cases hch : is.ps.chain with
  | nil => exact absurd hch h
  | cons a rest => rfl

/-- The slow path of `Compile` in closed form. -/
theorem compileM_slow_eq (now : Int) (s : PState) (c0 : List Meas)
    (p m : Meas) (hch : s.chain = (c0 ++ [p]) ++ [m])
    (hpc : p.compiled = none) :
    compileM now s = afterCompileDump now
      { s with
        chain := (slowWalk now false [] ((c0 ++ [p]) ++ [m])
          s.results s.active).1,
        results := (slowWalk now false [] ((c0 ++ [p]) ++ [m])
          s.results s.active).2.1,
        active := (slowWalk now false [] ((c0 ++ [p]) ++ [m])
          s.results s.active).2.2 } := by
  unfold compileM
  rw [hch]
  simp only [List.getLast?_concat, List.dropLast_concat, hpc]

/-- One completed `Stop` of the innermost guard, on a chain of depth ≥ 2,
preserves the machine invariant, pops exactly the stopped measurement, and
keeps every remaining node running. -/
theorem istop_step (is : IState) (c : List Meas) (mlast : Meas)
    (hch : is.ps.chain = c ++ [mlast]) (hc : c ≠ [])
    (hrun : allRunning is.ps.chain) (hinv : InvI is) :
    InvI (istop is) ∧ keyPath (istop is).ps.chain = keyPath c ∧
      allRunning (istop is).ps.chain := by
  have hne : is.ps.chain ≠ [] := by rw [hch]; simp
  rw [istop_eq is hne]
  set mZ : Meas := { mlast with stop := is.clk, ended := true } with hmZ
  have hstop : stopM is.clk is.ps
      = compileM is.clk { is.ps with chain := c ++ [mZ] } :=
    stopM_eq is.clk is.ps c mlast hch
  set c0 : List Meas := c.dropLast with hc0
  set p : Meas := c.getLast hc with hpdef
  have hcsplit : c0 ++ [p] = c := List.dropLast_append_getLast hc
  have hrunc : allRunning c := by
    intro y hy
    exact hrun y (by rw [hch]; exact List.mem_append.mpr (Or.inl hy))
  have hokZ : ChainOk is.ps.results [] (c ++ [mZ]) := by
    apply chainOk_replace_last is.ps.results mlast mZ rfl rfl
    rw [← hch]
    exact hinv.2
  have hP : keyPath is.ps.chain = keyPath c ++ [mZ.key] := by
    rw [hch, keyPath_append]
    rfl
  cases hpc : p.compiled with
  | some pp =>
    -- fast path
    have hsplit2 : ChainOk is.ps.results [] c ∧ _ :=
      chainOk_append_last is.ps.results c [] mZ hokZ
    have hcOk : ChainOk is.ps.results [] c := hsplit2.1
    have hcOk' : ChainOk is.ps.results [] (c0 ++ [p]) := by rw [hcsplit]; exact hcOk
    have hinfo := (chainOk_append_last is.ps.results c0 [] p hcOk').2 pp hpc
    have hpp : pp = keyPath c := by
      rw [hinfo.1, ← hcsplit, keyPath_append]
      simp [keyPath]
    have hfast := compileM_fast_eq is.clk { is.ps with chain := c ++ [mZ] }
      c0 p mZ pp (by simp [hcsplit]) hpc rfl
    rw [hstop, hfast]
    have hrev : ∀ x ∈ (c0 ++ [p]).reverse, x.ended = false := by
      intro x hx
      have := List.mem_reverse.mp hx
      rw [hcsplit] at this
      exact hrunc x this
    constructor
    · constructor
      · -- sample counts agree
        intro p'
        simp only [afterCompileDump_results]
        rw [climb_samplesAt is.clk _ _ hrev p']
        by_cases ht : p' = pp ++ [mZ.key]
        · subst ht
          rw [samplesAt_integAP_ended is.clk mZ rfl pp _
            (by simp [existsAtB, hinfo.2])]
          rw [hinv.1]
          rw [if_pos (by rw [hP, hpp])]
          push_cast
          ring
        · rw [samplesAt_congr _ _ _ (scalAt_integAP_ne is.clk mZ pp p' _ ht)]
          rw [hinv.1]
          rw [if_neg (by rw [hP, ← hpp]; exact ht)]
      · -- caches stay consistent
        simp only [afterCompileDump_results, afterCompileDump_chain]
        apply chainOk_mono is.ps.results
        · intro r hr
          rw [climb_isSome is.clk _ _ hrev r]
          exact integAP_isSome_mono is.clk mZ pp r _ hr
        · rw [hcsplit]; exact hcOk
    · constructor
      · simp only [afterCompileDump_chain]
        rw [hcsplit]
      · simp only [afterCompileDump_chain]
        intro y hy
        rw [hcsplit] at hy
        exact hrunc y hy
  | none =>
    -- slow path
    have hmZnone : mZ.compiled = none := by
      have hshape : c ++ [mZ] = c0 ++ (p :: [mZ]) := by
        rw [← hcsplit]; simp
      have := chainOk_none_after is.ps.results c0 [] p [mZ]
        (by rw [← hshape]; exact hokZ) hpc
      exact this mZ (by simp)
    have hslow := compileM_slow_eq is.clk { is.ps with chain := c ++ [mZ] }
      c0 p mZ (by simp [hcsplit]) hpc
    have hspec := slowWalk_spec is.clk c mZ [] is.ps.results is.ps.active false
      rfl hmZnone hrunc hokZ rfl (fun hcc => absurd hcc hc)
    rw [hstop, hslow]
    have hchq : ((c0 ++ [p]) ++ [mZ]) = c ++ [mZ] := by rw [hcsplit]
    rw [hchq]
    constructor
    · constructor
      · intro p'
        simp only [afterCompileDump_results]
        rw [hspec.2.1 p', hinv.1]
        by_cases ht : p' = keyPath c ++ [mZ.key]
        · rw [if_pos (by simpa using ht), if_pos (by rw [hP]; exact ht)]
          push_cast
          ring
        · rw [if_neg (by simpa using ht), if_neg (by rw [hP]; exact ht)]
          omega
      · simp only [afterCompileDump_results, afterCompileDump_chain]
        rw [hspec.1]
        exact hspec.2.2.1
    · constructor
      · simp only [afterCompileDump_chain]
        rw [hspec.1, keyPath_setCompiledAll]
      · simp only [afterCompileDump_chain]
        rw [hspec.1]
        exact allRunning_setCompiledAll c [] hrunc

end LangulusProfiler

namespace LangulusProfiler

theorem fresh_key (n : String) (b : Build) (now : Int) :
    (Meas.fresh n b now).key = (n, b) := rfl

theorem invI_shift (is : IState) (clk : Int) (h : InvI is) :
    InvI ⟨is.ps, is.counts, clk⟩ := h

mutual
/-- Running one well-nested scope from a state with a nonempty, all-running
chain and consistent caches/counts restores the chain's positions, keeps
everything running, and preserves the sample-count/stop-count agreement. -/
theorem runTree_pres (t : STree) (is : IState)
    (hinv : InvI is) (hne : is.ps.chain ≠ []) (hrun : allRunning is.ps.chain) :
    InvI (runTree t is) ∧
      keyPath (runTree t is).ps.chain = keyPath is.ps.chain ∧
      allRunning (runTree t is).ps.chain := by
  obtain ⟨n, b, ts⟩ := t
  obtain ⟨m0, rest, hch⟩ : ∃ m0 rest, is.ps.chain = m0 :: rest := by
    cases hc : is.ps.chain with
    | nil => exact absurd hc hne
    | cons a r => exact ⟨a, r, rfl⟩
  cases hm : childWalkMatch n b rest with
  | true =>
    -- inert guard: state unchanged (but the clock ticks), no stop on release
    have hred : runTree (.node n b ts) is
        = runList ts ⟨is.ps, is.counts, is.clk + 1⟩ := by
      unfold runTree istart startM
      rw [hch]
      simp [hm]
    rw [hred]
    have h2 := runList_pres ts ⟨is.ps, is.counts, is.clk + 1⟩
      (invI_shift is _ hinv) hne hrun
    exact h2
  | false =>
    -- real guard: push a fresh measurement, run the children, stop it
    have hred : runTree (.node n b ts) is
        = istop (runList ts
            ⟨{ is.ps with chain := is.ps.chain ++ [Meas.fresh n b is.clk] },
             is.counts, is.clk + 1⟩) := by
      unfold runTree istart startM
      rw [hch]
      simp [hm]
    rw [hred]
    set is1 : IState :=
      ⟨{ is.ps with chain := is.ps.chain ++ [Meas.fresh n b is.clk] },
       is.counts, is.clk + 1⟩ with his1
    have hinv1 : InvI is1 := by
      refine ⟨hinv.1, ?_⟩
      exact chainOk_snoc_none _ _ rfl _ _ hinv.2
    have hne1 : is1.ps.chain ≠ [] := by
      show is.ps.chain ++ [Meas.fresh n b is.clk] ≠ []
      simp
    have hrun1 : allRunning is1.ps.chain := by
      intro x hx
      rcases List.mem_append.mp hx with hx | hx
      · exact hrun x hx
      · simp at hx; subst hx; rfl
    have h2 := runList_pres ts is1 hinv1 hne1 hrun1
    set is2 := runList ts is1 with his2
    have hkp2 : keyPath is2.ps.chain = keyPath is.ps.chain ++ [(n, b)] := by
      rw [h2.2.1]
      show keyPath (is.ps.chain ++ [Meas.fresh n b is.clk]) = _
      rw [keyPath_append]
      rfl
    have hne2 : is2.ps.chain ≠ [] := by
      intro hcon
      rw [hcon] at hkp2
      exact absurd hkp2.symm (by simp [keyPath])
    set c2 : List Meas := is2.ps.chain.dropLast with hc2
    set mlast : Meas := is2.ps.chain.getLast hne2 with hml
    have hdecomp : c2 ++ [mlast] = is2.ps.chain :=
      List.dropLast_append_getLast hne2
    have hkp3 : keyPath c2 ++ [mlast.key] = keyPath is.ps.chain ++ [(n, b)] := by
      rw [← hkp2, ← hdecomp, keyPath_append]
      rfl
    obtain ⟨hkpc2, hkey⟩ := concat_inj _ _ _ _ hkp3
    have hc2ne : c2 ≠ [] := by
      intro hcon
      rw [hcon] at hkpc2
      rw [hch] at hkpc2
      exact absurd hkpc2 (by simp [keyPath])
    have h3 := istop_step is2 c2 mlast hdecomp.symm hc2ne h2.2.2 h2.1
    exact ⟨h3.1, by rw [h3.2.1, hkpc2], h3.2.2⟩

/-- `runTree_pres` lifted over a list of sibling scopes. -/
theorem runList_pres (ts : List STree) (is : IState)
    (hinv : InvI is) (hne : is.ps.chain ≠ []) (hrun : allRunning is.ps.chain) :
    InvI (runList ts is) ∧
      keyPath (runList ts is).ps.chain = keyPath is.ps.chain ∧
      allRunning (runList ts is).ps.chain := by
  cases ts with
  | nil => exact ⟨hinv, rfl, hrun⟩
  | cons t rest =>
    have h1 := runTree_pres t is hinv hne hrun
    have hne1 : (runTree t is).ps.chain ≠ [] := by
      intro hcon
      have hkp := h1.2.1
      rw [hcon] at hkp
      cases hch : is.ps.chain with
      | nil => exact hne hch
      | cons a r =>
        rw [hch] at hkp
        exact absurd hkp (by simp [keyPath])
    have h2 := runList_pres rest (runTree t is) h1.1 hne1 h1.2.2
    refine ⟨h2.1, ?_, h2.2.2⟩
    show keyPath (runList rest (runTree t is)).ps.chain = keyPath is.ps.chain
    rw [h2.2.1, h1.2.1]
end

end LangulusProfiler

namespace LangulusProfiler

/-- The root case of `Compile` in closed form: integrate into the root map,
mark active, flush (`Instance.End()`) — and leave the chain in place. -/
theorem compileM_root_eq (now : Int) (s : PState) (m : Meas)
    (h : s.chain = [m]) :
    compileM now s = { s with results := integAP now m [] s.results,
                              active := insertActive m.build s.active,
                              dumps := now :: s.dumps } := by
  unfold compileM
  rw [h]
  simp

/-- C1 counterexample: the well-nested two-pair sequence
Start(a) · Stop · Start(a) · Stop leaves the root Result "a" with
`samples = 2` although only one completed Stop happened at that tree
position — after the first root cycle the stale root is re-integrated by the
next compile (and the second top-level scope nests under it), so the claim
fails for sequences spanning more than one root cycle. -/
theorem multi_root_samples_mismatch_counterexample :
    samplesAt [("a", cbuild)]
        (runEv [.start "a" cbuild, .stop, .start "a" cbuild, .stop]
          initI).ps.results = 2 ∧
      (runEv [.start "a" cbuild, .stop, .start "a" cbuild, .stop]
          initI).counts [("a", cbuild)] = 1 ∧
      samplesAt [("a", cbuild)]
          (runEv [.start "a" cbuild, .stop, .start "a" cbuild, .stop]
            initI).ps.results
        ≠ ((runEv [.start "a" cbuild, .stop, .start "a" cbuild, .stop]
            initI).counts [("a", cbuild)] : Int) := by
  decide

/-- C1 (amended): for every well-nested sequence of Start/Stop pairs forming
a single root cycle (one outermost pair, arbitrary nesting inside — the
executions described by an `STree`), after the last Stop the `samples` field
of every Result node equals the number of completed Stop calls of that
`(name, build)` pair at that tree position (and positions without a node saw
none).  Sequences with a second root cycle break this, as the counterexample
shows. -/
theorem single_cycle_samples_eq_stops (t : STree) (p : List Key) :
    samplesAt p (runTree t initI).ps.results
      = ((runTree t initI).counts p : Int) := by
  obtain ⟨n, b, ts⟩ := t
  have hred : runTree (.node n b ts) initI
      = istop (runList ts
          ⟨⟨[Meas.fresh n b 0], [], [], 0, 0, []⟩, fun _ => 0, 1⟩) := by
    unfold runTree istart startM initI initP
    simp
  rw [hred]
  set is1 : IState := ⟨⟨[Meas.fresh n b 0], [], [], 0, 0, []⟩, fun _ => 0, 1⟩
    with his1
  have hinv1 : InvI is1 := by
    constructor
    · intro q
      rw [samplesAt_empty]
      rfl
    · exact .consNone [] _ [] rfl (fun y hy => by simp at hy)
  have h2 := runList_pres ts is1 hinv1 (by simp)
    (fun x hx => by
      simp only [his1, List.mem_singleton] at hx
      subst hx
      rfl)
  set is2 := runList ts is1 with his2
  have hkp2 : keyPath is2.ps.chain = [(n, b)] := by
    rw [h2.2.1]
    rfl
  have hne2 : is2.ps.chain ≠ [] := by
    intro hcon
    rw [hcon] at hkp2
    simp [keyPath] at hkp2
  set c2 : List Meas := is2.ps.chain.dropLast with hc2
  set mlast : Meas := is2.ps.chain.getLast hne2 with hml
  have hdecomp : c2 ++ [mlast] = is2.ps.chain :=
    List.dropLast_append_getLast hne2
  have hkp3 : keyPath c2 ++ [mlast.key] = [(n, b)] := by
    rw [← hkp2, ← hdecomp, keyPath_append]
    rfl
  have hc2nil : c2 = [] := by
    cases hc : c2 with
    | nil => rfl
    | cons a r =>
      rw [hc] at hkp3
      have := congrArg List.length hkp3
      simp [keyPath] at this
  have hmkey : mlast.key = (n, b) := by
    rw [hc2nil] at hkp3
    simpa [keyPath] using hkp3
  have hchain2 : is2.ps.chain = [mlast] := by
    rw [← hdecomp, hc2nil]
    rfl
  rw [istop_eq is2 hne2]
  rw [stopM_eq is2.clk is2.ps [] mlast (by rw [hchain2]; rfl)]
  rw [compileM_root_eq is2.clk _ { mlast with stop := is2.clk, ended := true } rfl]
  show samplesAt p (integAP is2.clk { mlast with stop := is2.clk, ended := true }
      [] is2.ps.results)
    = (((if p = keyPath is2.ps.chain then is2.counts p + 1 else is2.counts p)
        : Nat) : Int)
  by_cases hp : p = [({ mlast with stop := is2.clk, ended := true } : Meas).key]
  · rw [hp]
    have hstep := samplesAt_integAP_ended is2.clk
      { mlast with stop := is2.clk, ended := true } rfl [] is2.ps.results rfl
    simp only [List.nil_append] at hstep
    rw [hstep, h2.1.1]
    rw [if_pos (by rw [hkp2]; exact congrArg (fun k => [k]) hmkey)]
    push_cast
    ring
  · rw [samplesAt_congr _ _ _
      (scalAt_integAP_ne is2.clk _ [] p _ (by simpa using hp))]
    rw [h2.1.1 p]
    rw [if_neg (by
      rw [hkp2]
      intro hcon
      exact hp (by rw [hcon]; exact (congrArg (fun k => [k]) hmkey).symm))]

end LangulusProfiler
